import Mathlib

/-!
Shallow embedding of the MonacGraph lsm-storage core (Rust) in Lean 4,
together with theorems settling the specification claims about it.

Conventions of the embedding:
* machine integers are modelled as Nat with explicit truncation
  (value % 2^w) exactly where the Rust code truncates (as-casts,
  wrapping stores into fixed-width fields);
* byte buffers are lists of Nat, each element a byte value;
* fallible Rust code returns Option: none models a panic or an error
  as documented at each definition;
* Rust HashMap/HashSet values are modelled as insertion-ordered
  association lists; where the Rust iteration order is arbitrary,
  either only the induced set matters for the theorems proved here or
  the list is sorted afterwards, so the choice is immaterial.
-/

namespace MonacGraph

/-! ## Byte encoding helpers (little endian and big endian) -/

/-- Little-endian byte list of width w for the value n, as produced by
the Rust to_le_bytes methods (truncates to w bytes). -/
def leBytes : Nat → Nat → List Nat
  | 0, _ => []
  | w + 1, n => n % 256 :: leBytes w (n / 256)

/-- Value of a little-endian byte list, as read by from_le_bytes. -/
def leVal : List Nat → Nat
  | [] => 0
  | b :: bs => b + 256 * leVal bs

/-- Big-endian byte list of width w for the value n, as produced by
the Rust to_be_bytes methods (truncates to w bytes). -/
def beBytes (w n : Nat) : List Nat :=
  (leBytes w n).reverse

/-- Value of a big-endian byte list, as read by from_be_bytes. -/
def beVal (bs : List Nat) : Nat :=
  bs.foldl (fun acc b => acc * 256 + b) 0

/-- Big-endian u16 read at byte offset j of a buffer (u16::from_be_bytes
over data[j..j+2]). -/
def readU16be (data : List Nat) (j : Nat) : Nat :=
  beVal ((data.drop j).take 2)

/-- Big-endian u32 read at byte offset j of a buffer (u32::from_be_bytes
over data[j..j+4]). -/
def readU32be (data : List Nat) (j : Nat) : Nat :=
  beVal ((data.drop j).take 4)

/-! ## Delta operations and delta logs (lsm-storage/src/delta.rs) -/

/-- A single 16-byte delta operation: timestamp u64, neighbor VId u32,
op_type u32 (0 = AddNeighbor, 1 = RemoveNeighbor, others reserved). -/
structure DeltaOperation where
  timestamp : Nat
  neighbor : Nat
  op_type : Nat
deriving DecidableEq, Repr

/-- DeltaOperation::new(timestamp, op_type, neighbor); op_type is already
its u32 representation here. -/
def DeltaOperation.new (timestamp op_type neighbor : Nat) : DeltaOperation :=
  ⟨timestamp, neighbor, op_type⟩

/-- DeltaOperation::encode: 16 bytes, little endian:
timestamp (8) then neighbor (4) then op_type (4). -/
def DeltaOperation.encode (op : DeltaOperation) : List Nat :=
  leBytes 8 op.timestamp ++ leBytes 4 op.neighbor ++ leBytes 4 op.op_type

/-- DeltaOperation::decode; none models the error results (wrong length
or an op_type other than 0/1). -/
def DeltaOperation.decode (bytes : List Nat) : Option DeltaOperation :=
  if bytes.length = 16 then
    let ts := leVal (bytes.take 8)
    let nb := leVal ((bytes.drop 8).take 4)
    let ot := leVal (bytes.drop 12)
    if ot = 0 ∨ ot = 1 then some ⟨ts, nb, ot⟩ else none
  else none

/-- DeltaOperation::encode_batch: concatenation of the 16-byte encodings. -/
def DeltaOperation.encode_batch (ops : List DeltaOperation) : List Nat :=
  ops.flatMap DeltaOperation.encode

/-- Decoding loop over consecutive 16-byte chunks (the chunks_exact walk
of decode_batch; it is only entered when the length is a multiple of 16,
so a short final chunk never occurs there). -/
def decodeChunks (bytes : List Nat) : Option (List DeltaOperation) :=
  if h : bytes = [] then some []
  else
    match DeltaOperation.decode (bytes.take 16) with
    | none => none
    | some op =>
      match decodeChunks (bytes.drop 16) with
      | none => none
      | some ops => some (op :: ops)
termination_by bytes.length
decreasing_by
  simp only [List.length_drop]
  have : 0 < bytes.length := List.length_pos.mpr h
  omega

/-- DeltaOperation::decode_batch; none models the error results. -/
def DeltaOperation.decode_batch (bytes : List Nat) : Option (List DeltaOperation) :=
  if bytes.length % 16 = 0 then decodeChunks bytes else none

/-- Well-formedness of a DeltaOperation as a Rust value: the fields fit
their machine widths (u64, u32) and the op_type is one of the two
defined codes. -/
def DeltaOperation.wf (op : DeltaOperation) : Prop :=
  op.timestamp < 2 ^ 64 ∧ op.neighbor < 2 ^ 32 ∧ (op.op_type = 0 ∨ op.op_type = 1)

instance (op : DeltaOperation) : Decidable op.wf := by
  unfold DeltaOperation.wf
  infer_instance

/-- A delta log: the list of operations of one vertex. -/
structure DeltaLog where
  ops : List DeltaOperation
deriving DecidableEq, Repr

/-- Timestamp order used by the source when sorting operations
(sort_unstable_by_key on the timestamp); the unstable sort is modelled
with a stable insertion sort, a legitimate refinement of the
unspecified unstable order. -/
def tsRel (a b : DeltaOperation) : Prop :=
  a.timestamp ≤ b.timestamp

instance : DecidableRel tsRel :=
  fun a b => Nat.decLe a.timestamp b.timestamp

instance : IsTotal DeltaOperation tsRel :=
  ⟨fun a b => Nat.le_total a.timestamp b.timestamp⟩

instance : IsTrans DeltaOperation tsRel :=
  ⟨fun _ _ _ h1 h2 => Nat.le_trans h1 h2⟩

/-- DeltaLog::from_ops: sort the operations by timestamp. -/
def DeltaLog.from_ops (ops : List DeltaOperation) : DeltaLog :=
  ⟨ops.insertionSort tsRel⟩

/-- DeltaLog::encode: u32 little-endian count, then the operations. -/
def DeltaLog.encode (log : DeltaLog) : List Nat :=
  leBytes 4 log.ops.length ++ DeltaOperation.encode_batch log.ops

/-- DeltaLog::decode; none models the error results (too short, or a
length that does not match the count). -/
def DeltaLog.decode (bytes : List Nat) : Option DeltaLog :=
  if bytes.length < 4 then none
  else
    let count := leVal (bytes.take 4)
    if bytes.length = 4 + count * 16 then
      match DeltaOperation.decode_batch (bytes.drop 4) with
      | none => none
      | some ops => some ⟨ops⟩
    else none

/-- The occupied-entry update of the latest_ops hash map in
DeltaLog::merge: the entry of the operation's neighbor key is replaced
only when the new timestamp is strictly larger; other entries are left
alone. -/
def replaceIfNewer (op : DeltaOperation) (p : Nat × DeltaOperation) :
    Nat × DeltaOperation :=
  if p.1 = op.neighbor ∧ p.2.timestamp < op.timestamp then (p.1, op) else p

/-- One step of the latest_ops hash-map fold in DeltaLog::merge: a vacant
neighbor key is inserted, an occupied one is replaced only when the new
timestamp is strictly larger. The map is modelled as an association list
in first-insertion order. -/
def updateLatest (m : List (Nat × DeltaOperation)) (op : DeltaOperation) :
    List (Nat × DeltaOperation) :=
  if m.any (fun p => p.1 == op.neighbor) then m.map (replaceIfNewer op)
  else m ++ [(op.neighbor, op)]

/-- DeltaLog::merge. Note the source's early returns: an empty input
gives the empty log and a single log is returned as is, bypassing the
last-write-wins reduction entirely. -/
def DeltaLog.merge (logs : List DeltaLog) : DeltaLog :=
  match logs with
  | [] => ⟨[]⟩
  | [l] => l
  | _ =>
    let latest := (logs.flatMap DeltaLog.ops).foldl updateLatest []
    ⟨(latest.map Prod.snd).insertionSort tsRel⟩

/-- Decoding of the operand list in DeltaLog::merge_for_rocksdb: every
operand is decoded as a batch and wrapped via from_ops. The source's
separate multiple-of-16 pre-check is subsumed by decode_batch, which
performs the same check with the same failure result. -/
def decodeOperands : List (List Nat) → Option (List DeltaLog)
  | [] => some []
  | o :: rest =>
    match DeltaOperation.decode_batch o with
    | none => none
    | some ops =>
      match decodeOperands rest with
      | none => none
      | some ls => some (DeltaLog.from_ops ops :: ls)

/-- DeltaLog::merge_for_rocksdb (the full-merge callback); none models
the merge failure. -/
def DeltaLog.merge_for_rocksdb (base : Option (List Nat))
    (operands : List (List Nat)) : Option (List Nat) :=
  let baseLogs : Option (List DeltaLog) :=
    match base with
    | none => some []
    | some bytes =>
      match DeltaLog.decode bytes with
      | some l => some [l]
      | none => none
  match baseLogs with
  | none => none
  | some ls =>
    match decodeOperands operands with
    | none => none
    | some opLogs => some (DeltaLog.merge (ls ++ opLogs)).encode

/-- DeltaLog::partial_merge_for_rocksdb: validate every operand length
and concatenate the raw bytes. -/
def DeltaLog.partial_merge_for_rocksdb (operands : List (List Nat)) :
    Option (List Nat) :=
  if operands.all (fun o => o.length % 16 == 0) then some operands.flatten
  else none

/-! ## Vertex index items and cache keys
(lsm-storage/src/vertex_index.rs, lsm-storage/src/cache.rs) -/

/-- VertexIndexItem::normal: packs the u16 virtual community id at bits
62..48, the u32 page id at bits 47..16 and the u16 in-page offset at
bits 15..0 of a u64. The explicit masks model the Rust parameter types
(u16, u32, u16). -/
def VertexIndexItem.normal (virtual_comm_id page_id offset : Nat) : Nat :=
  ((virtual_comm_id % 2 ^ 16) <<< 48) ||| ((page_id % 2 ^ 32) <<< 16) ||| (offset % 2 ^ 16)

/-- VertexIndexItem::giant: only the discriminant bit 63 set. -/
def VertexIndexItem.giant : Nat := 1 <<< 63

/-- VertexIndexItem::is_giant: bit 63 of the packed word. -/
def VertexIndexItem.is_giant (item : Nat) : Bool :=
  item &&& VertexIndexItem.giant != 0

/-- CacheKey::new: virtual community id in the high 32 bits, page id in
the low 32 bits of a u64. The masks model the u16/u32 parameter types. -/
def CacheKey.new (virtual_comm_id page_id : Nat) : Nat :=
  ((virtual_comm_id % 2 ^ 16) <<< 32) ||| (page_id % 2 ^ 32)

/-! ## VertexIndex bookkeeping for insert_vertex / community_search
(lsm-storage/src/vertex_index.rs, lsm-storage/src/algorithms/comm.rs) -/

/-- The fields of VertexIndex that the claims touch; vertex_array holds
packed VertexIndexItem words. -/
structure VertexIndex where
  giant_vertex_boundary : Nat
  giant_community_boundary : Nat
  vertex_array : List Nat
  community_map : List Nat
  community_list : List (List Nat)
  vertex_degree : List Nat
deriving Repr

/-- VertexIndex::add_giant_vertex: appends a Giant record and a new
singleton community, then records in community_map the length of
community_list after the push (note: that is one past the index of the
community just appended). Returns the updated index and the new id. -/
def VertexIndex.add_giant_vertex (vi : VertexIndex) : VertexIndex × Nat :=
  let vertex_array := vi.vertex_array ++ [VertexIndexItem.giant]
  let new_vertex_id := vertex_array.length - 1
  let community_list := vi.community_list ++ [[new_vertex_id]]
  let community_map := vi.community_map ++ [community_list.length]
  ({ vi with
      vertex_array := vertex_array
      community_list := community_list
      community_map := community_map }, new_vertex_id)

/-- LsmCommunity::community_search. The outer none models a panic (an
out-of-range community_map entry makes the community_list lookup return
Option::None, which the source unwraps); some none is the documented
None result for an invalid vertex id. -/
def LsmCommunity.community_search (vi : VertexIndex) (vertex_id : Nat) :
    Option (Option (List Nat)) :=
  if vertex_id ≥ vi.vertex_array.length then some none
  else
    match vi.community_map[vertex_id]? with
    | none => none
    | some comm_id =>
      match vi.community_list[comm_id]? with
      | none => none
      | some l => some (some l)

/-! ## check_vertex_state and insert_edge (lsm-storage/src/comm_io.rs) -/

/-- LsmCommunity::check_vertex_state: indexes vertex_array without a
bounds check, so the outer none models the index-out-of-bounds panic;
the inner Option is the function's return type (the source never
actually produces its None). -/
def LsmCommunity.check_vertex_state (vertex_array : List Nat) (vertex_id : Nat) :
    Option (Option Bool) :=
  match vertex_array[vertex_id]? with
  | none => none
  | some item => some (some (VertexIndexItem.is_giant item))

/-- Outcome of insert_edge / remove_edge: a panic, the tagged error
value, or the delta operation appended to the KV for the source vertex. -/
inductive EdgeWriteResult where
  | panicked : EdgeWriteResult
  | failed : EdgeWriteResult
  | appended : DeltaOperation → EdgeWriteResult
deriving DecidableEq, Repr

/-- LsmCommunity::insert_edge, with the microsecond clock value passed in
as now_micros: checks both endpoints via check_vertex_state and appends
an AddNeighbor (op_type 0) delta operation for the source vertex. -/
def LsmCommunity.insert_edge (vertex_array : List Nat) (src_vertex dst_vertex : Nat)
    (now_micros : Nat) : EdgeWriteResult :=
  match LsmCommunity.check_vertex_state vertex_array src_vertex with
  | none => .panicked
  | some none => .failed
  | some (some _) =>
    match LsmCommunity.check_vertex_state vertex_array dst_vertex with
    | none => .panicked
    | some none => .failed
    | some (some _) => .appended (DeltaOperation.new now_micros 0 dst_vertex)

/-! ## Blocks and the block builder
(lsm-storage/src/block.rs, lsm-storage/src/block/builder.rs) -/

/-- A block as held in memory: the counts parsed from (or written to)
the header and the raw page bytes. The byte views of the source are
recomputed from the counts exactly as Block::new and Block::decode set
them (vertex list at offset 4, edge list right after it). -/
structure Block where
  vertex_count : Nat
  edge_count : Nat
  data : List Nat
deriving DecidableEq, Repr

/-- Byte offset of the edge list region of a block. -/
def Block.edge_list_offset (blk : Block) : Nat :=
  4 + blk.vertex_count * 8

/-- Block::new. The counts are the list lengths as u16 (wrapping); the
assertion that the data must fit in block_size is modelled by none. The
final Vec::resize pads with zeros or truncates to block_size. -/
def Block.new (vertex_list : List (Nat × Nat)) (edge_list : List Nat)
    (block_size : Nat) : Option Block :=
  let vertex_count := vertex_list.length % 2 ^ 16
  let edge_count := edge_list.length % 2 ^ 16
  let vertex_list_size := vertex_count * 8
  let edge_list_size := edge_count * 4
  let total_size := 4 + vertex_list_size + edge_list_size
  if block_size < total_size then none
  else
    let raw := beBytes 2 vertex_count ++ beBytes 2 edge_count
      ++ vertex_list.flatMap (fun ve => beBytes 4 ve.1 ++ beBytes 4 ve.2)
      ++ edge_list.flatMap (fun e => beBytes 4 e)
    let data :=
      if raw.length ≤ block_size then raw ++ List.replicate (block_size - raw.length) 0
      else raw.take block_size
    some ⟨vertex_count, edge_count, data⟩

/-- Block::encode returns the underlying bytes. -/
def Block.encode (blk : Block) : List Nat :=
  blk.data

/-- Block::decode: parse the two header counts, keep the bytes; none
models the assertion that at least 4 header bytes are present. -/
def Block.decode (data : List Nat) : Option Block :=
  if data.length < 4 then none
  else some ⟨readU16be data 0, readU16be data 2, data⟩

/-- Neighbor slice bounds of the vertex at in-page index i, exactly as
NeighborIterator::new reads them: the start offset from the vertex
entry, the end offset from the next entry or edge_count for the last
vertex. -/
def Block.neighbor_range (blk : Block) (vertex_index : Nat) : Nat × Nat :=
  let base := 4 + vertex_index * 8
  let start := readU32be blk.data (base + 4)
  let stop :=
    if vertex_index + 1 < blk.vertex_count then readU32be blk.data (base + 8 + 4)
    else blk.edge_count
  (start, stop)

/-- Block::get_neighbor_clone, the collected NeighborIterator: none when
the in-page index is out of range, otherwise the big-endian u32 values
of edge slots start..stop. An inverted range yields the empty list, as
the iterator immediately stops. -/
def Block.get_neighbor_clone (blk : Block) (vertex_index : Nat) : Option (List Nat) :=
  if vertex_index < blk.vertex_count then
    let r := blk.neighbor_range vertex_index
    some ((List.range' r.1 (r.2 - r.1)).map
      (fun j => readU32be blk.data (blk.edge_list_offset + j * 4)))
  else none

/-- The state of a BlockBuilder. -/
structure BlockBuilder where
  vertices : List (Nat × Nat)
  edges : List Nat
  block_size : Nat
  current_edge_offset : Nat
deriving DecidableEq, Repr

/-- BlockBuilder::new. -/
def BlockBuilder.new (block_size : Nat) : BlockBuilder :=
  ⟨[], [], block_size, 0⟩

/-- BlockBuilder::estimated_size. -/
def BlockBuilder.estimated_size (b : BlockBuilder) : Nat :=
  4 + b.vertices.length * 8 + b.edges.length * 4

/-- BlockBuilder::is_empty. -/
def BlockBuilder.is_empty (b : BlockBuilder) : Bool :=
  b.vertices.isEmpty

/-- BlockBuilder::add_vertex: refuses the vertex when it would overflow
block_size, unless the builder is empty (the oversized-vertex escape
hatch). The running edge offset is a u32 in the source, hence the
truncation. Returns the updated builder and the success flag. -/
def BlockBuilder.add_vertex (b : BlockBuilder) (vertex_id : Nat)
    (neighbors : List Nat) : BlockBuilder × Bool :=
  let new_size := b.estimated_size + 8 + neighbors.length * 4
  if new_size > b.block_size ∧ b.is_empty = false then (b, false)
  else
    ({ b with
        vertices := b.vertices ++ [(vertex_id, b.current_edge_offset)]
        edges := b.edges ++ neighbors
        current_edge_offset := (b.current_edge_offset + neighbors.length) % 2 ^ 32 },
      true)

/-- One FxHashMap insertion: overwrite the value of an existing key in
place, append a new key. -/
def hashInsert (m : List (Nat × Nat)) (k v : Nat) : List (Nat × Nat) :=
  if m.any (fun p => p.1 == k) then
    m.map (fun p => if p.1 = k then (k, v) else p)
  else m ++ [(k, v)]

/-- The vertex-id to in-page-index map built by BlockBuilder::build,
inserted in vertex order; each index is cast to u16 in the source. -/
def vertexIndexMapOf (vertices : List (Nat × Nat)) : List (Nat × Nat) :=
  (vertices.enum.map (fun p => (p.2.1, p.1 % 2 ^ 16))).foldl
    (fun m p => hashInsert m p.1 p.2) []

/-- BlockBuilder::build: none models the panic on an empty builder and
the assertion inside Block::new. Returns the block and the vertex-id to
in-page-index map (as an association list in first-insertion order; the
source's hash map has no specified iteration order, and every theorem
below only uses lookups in that map). -/
def BlockBuilder.build (b : BlockBuilder) : Option (Block × List (Nat × Nat)) :=
  if b.vertices.isEmpty then none
  else
    match Block.new b.vertices b.edges b.block_size with
    | none => none
    | some blk => some (blk, vertexIndexMapOf b.vertices)

/-! ## Buckets and the bucket builder
(lsm-storage/src/bucket.rs, lsm-storage/src/bucket/builder.rs) -/

/-- The metadata of one vertex of a bucket: its id, the page it lives
in and its in-page index. -/
structure VertexMeta where
  vertex_id : Nat
  page_id : Nat
  offset_inner : Nat
deriving DecidableEq, Repr

/-- VertexMeta::encode: u32 count, then u32 vertex_id, u32 page_id and
u16 offset_inner per entry; bytes::BufMut::put_u32/put_u16 write big
endian. -/
def VertexMeta.encode (vertex_meta : List VertexMeta) : List Nat :=
  beBytes 4 vertex_meta.length ++
    vertex_meta.flatMap (fun m =>
      beBytes 4 m.vertex_id ++ beBytes 4 m.page_id ++ beBytes 2 m.offset_inner)

/-- Modelled from the spec: the bloom-filter module (bucket/bloom.rs) is
missing from the provided sources. The spec pins the bloom region only
as an opaque byte region of bloom_size bytes between the vertex metas
and the footer, built over the edge-key hashes; nothing on the bucket
read path below vertex_meta_offset depends on its contents, so an
arbitrary concrete byte shape of the right provenance suffices. -/
def Bloom.encodeBytes (key_hashes : List Nat) : List Nat :=
  key_hashes.map (fun h => h % 256)

/-- Modelled from the spec: farmhash is an external crate; the builder
hashes the 64-bit edge key (src<<32)|dst into the bloom key stream and
truncates the hash to u32. The hash itself is opaque to every property
verified here. -/
def farmhash64 (key : Nat) : Nat :=
  key % 2 ^ 32

/-- The bucket as returned by BucketBuilder::build: the file byte
buffer that was written, the vertex metas kept in memory, the meta
offset and the block size. -/
structure Bucket where
  file : List Nat
  vertex_metas : List VertexMeta
  vertex_meta_offset : Nat
  block_size : Nat
deriving Repr

/-- Bucket::read_block: none models the out-of-bounds bail and a short
disk read; otherwise the bytes of the page, clipped at
vertex_meta_offset, are decoded as a block. -/
def Bucket.read_block (bkt : Bucket) (page_id : Nat) : Option Block :=
  let offset := page_id * bkt.block_size
  if offset ≥ bkt.vertex_meta_offset then none
  else
    let offset_end := min (offset + bkt.block_size) bkt.vertex_meta_offset
    let block_len := offset_end - offset
    if offset + block_len > bkt.file.length then none
    else Block.decode ((bkt.file.drop offset).take block_len)

/-- The state of a BucketBuilder. -/
structure BucketBuilder where
  builder : BlockBuilder
  block_size : Nat
  edge_hashes : List Nat
  data : List Nat
  vertex_metas : List VertexMeta
  current_page_id : Nat
deriving Repr

/-- BucketBuilder::new. -/
def BucketBuilder.new (block_size : Nat) : BucketBuilder :=
  ⟨BlockBuilder.new block_size, block_size, [], [], [], 0⟩

/-- BucketBuilder::finish_block: build the current block, record a
vertex meta for every vertex of the block at the current page, append
the encoded block bytes and move to the next page (a u32 counter).
None models the panics inside BlockBuilder::build. The metas are
recorded in the first-insertion order of the vertex-index map (the
source iterates a hash map in unspecified order; only which metas
exist is ever used). -/
def BucketBuilder.finish_block (bb : BucketBuilder) : Option BucketBuilder :=
  match bb.builder.build with
  | none => none
  | some blkmap =>
    some { bb with
      builder := BlockBuilder.new bb.block_size
      vertex_metas := bb.vertex_metas ++
        blkmap.2.map (fun p => ⟨p.1, bb.current_page_id, p.2⟩)
      data := bb.data ++ blkmap.1.encode
      current_page_id := (bb.current_page_id + 1) % 2 ^ 32 }

/-- BucketBuilder::add: hash every edge into the bloom key stream, then
try to add the vertex to the current block builder; on overflow finish
the block and retry into the fresh builder. None models the panics of
finish_block and the assert on the retry (which cannot fire for a
vertex that fits an empty block, thanks to the escape hatch). -/
def BucketBuilder.add (bb : BucketBuilder) (vertex_id : Nat)
    (neighbors : List Nat) : Option BucketBuilder :=
  let hashes := bb.edge_hashes ++ neighbors.map (fun n =>
    farmhash64 (((vertex_id % 2 ^ 32) <<< 32) ||| (n % 2 ^ 32)))
  let bb1 := { bb with edge_hashes := hashes }
  let r := bb1.builder.add_vertex vertex_id neighbors
  if r.2 then some { bb1 with builder := r.1 }
  else
    match bb1.finish_block with
    | none => none
    | some bb2 =>
      let r2 := bb2.builder.add_vertex vertex_id neighbors
      if r2.2 then some { bb2 with builder := r2.1 } else none

/-- Feeding a sequence of (vertex, neighbor-list) pairs to the bucket
builder, in order (the loop of create_with_graph_file over the vertex
list of a virtual community). -/
def BucketBuilder.addAll : BucketBuilder → List (Nat × List Nat) → Option BucketBuilder
  | bb, [] => some bb
  | bb, p :: t =>
    match bb.add p.1 p.2 with
    | none => none
    | some bb2 => bb2.addAll t

/-- BucketBuilder::build: finish the in-progress block when it is not
empty, then lay the file out: the block bytes, the vertex metas at
vertex_meta_offset, the bloom region, and the 12-byte big-endian footer
holding block_size, vertex_meta_offset and bloom_size. -/
def BucketBuilder.build (bb : BucketBuilder) : Option Bucket :=
  let finished := if bb.builder.is_empty then some bb else bb.finish_block
  match finished with
  | none => none
  | some bb2 =>
    let buf := bb2.data
    let vertex_meta_offset := buf.length
    let bloom := Bloom.encodeBytes bb2.edge_hashes
    let footer := beBytes 4 bb2.block_size ++ beBytes 4 vertex_meta_offset ++
      beBytes 4 bloom.length
    some ⟨buf ++ VertexMeta.encode bb2.vertex_metas ++ bloom ++ footer,
      bb2.vertex_metas, vertex_meta_offset, bb2.block_size⟩

/-! ## Reference shapes for the bucket-builder proofs: the CSR block a
group of consecutively fed entries ends up in. -/

/-- The edge list of a group of fed entries: their neighbor lists
concatenated in feed order. -/
def groupEdges (g : List (Nat × List Nat)) : List Nat :=
  g.flatMap Prod.snd

/-- Total degree of a group. -/
def degSum (g : List (Nat × List Nat)) : Nat :=
  (groupEdges g).length

/-- The vertex entries of the CSR block of a group: each vertex paired
with the running edge offset. -/
def csrVertices : List (Nat × List Nat) → Nat → List (Nat × Nat)
  | [], _ => []
  | p :: t, off => (p.1, off) :: csrVertices t (off + p.2.length)

/-- The raw (unpadded) bytes Block::new writes for a group. -/
def blockRawOf (g : List (Nat × List Nat)) : List Nat :=
  beBytes 2 (g.length % 2 ^ 16) ++ beBytes 2 ((groupEdges g).length % 2 ^ 16) ++
    (csrVertices g 0).flatMap (fun ve => beBytes 4 ve.1 ++ beBytes 4 ve.2) ++
    (groupEdges g).flatMap (fun e => beBytes 4 e)

/-- The padded block bytes of a group. -/
def blockBytesOf (g : List (Nat × List Nat)) (bs : Nat) : List Nat :=
  blockRawOf g ++ List.replicate (bs - (blockRawOf g).length) 0

/-- The vertex metas of a list of groups: for the group at page i, one
meta per vertex with its in-block index. -/
def metasOf (groups : List (List (Nat × List Nat))) : List VertexMeta :=
  groups.enum.flatMap (fun ig =>
    ig.2.enum.map (fun jp => ⟨jp.2.1, ig.1, jp.1⟩))

/-- The page bytes Block::new writes for a single vertex (id 0, edge
offset 0) whose edge count has wrapped the u16 header field to 0: the
edge bytes are still written, but the header advertises none. -/
def wrapData (r : List Nat) : List Nat :=
  beBytes 2 1 ++ beBytes 2 0 ++
    ([((0 : Nat), (0 : Nat))].flatMap
      (fun ve => beBytes 4 ve.1 ++ beBytes 4 ve.2)) ++
    r.flatMap (fun e => beBytes 4 e)

/-- The bucket-builder state reached after feeding the entries of the
already finished blocks (one group per page, in page order) and the
entries of the in-progress block, for a given bloom key stream. -/
def bucketStateOf (bs : Nat) (hashes : List Nat)
    (groups : List (List (Nat × List Nat)))
    (cur : List (Nat × List Nat)) : BucketBuilder :=
  ⟨⟨csrVertices cur 0, groupEdges cur, bs, degSum cur⟩, bs, hashes,
    (groups.map (fun g => blockBytesOf g bs)).flatten, metasOf groups,
    groups.length⟩

/-! ## The global neighbor iterator (lsm-storage/src/iterator.rs and
LsmCommunityStorageInner::get_neighbor_iter in comm_io.rs) -/

/-- The list produced by draining GlobalNeighborIterator: the MemGraph
neighbors of the vertex first, then the base-block CSR slice computed by
the iterator's block state (empty when there is no block, no offset, or
an out-of-range offset). -/
def global_neighbor_list (mem_neighbors : List Nat) (block : Option Block)
    (vertex_offset : Option Nat) : List Nat :=
  let block_part :=
    match block, vertex_offset with
    | some blk, some off =>
      if off < blk.vertex_count then
        let r := blk.neighbor_range off
        (List.range' r.1 (r.2 - r.1)).map
          (fun j => readU32be blk.data (blk.edge_list_offset + j * 4))
      else []
    | _, _ => []
  mem_neighbors ++ block_part

/-! ## read_out_neighbor_clone and apply_delta_to_neighbors
(lsm-storage/src/comm_io.rs) -/

/-- Insertion into the FxHashSet of neighbors, modelled as a list kept
without duplicates in first-insertion order (the set is sorted before
it is returned, so the intermediate order is immaterial). -/
def setInsert (s : List Nat) (x : Nat) : List Nat :=
  if x ∈ s then s else s ++ [x]

/-- One iteration of the delta loop of apply_delta_to_neighbors:
op_type 0 inserts the neighbor into the set, op_type 1 erases it, any
other (reserved) op_type is ignored. -/
def applyOpToSet (s : List Nat) (op : DeltaOperation) : List Nat :=
  if op.op_type = 0 then setInsert s op.neighbor
  else if op.op_type = 1 then s.erase op.neighbor
  else s

/-- LsmCommunity::apply_delta_to_neighbors: nothing happens for an empty
operation list; otherwise a set is seeded with the base neighbors, each
operation is applied in list order (op_type 0 inserts, 1 erases, others
are ignored) and the set is returned sorted ascending. -/
def LsmCommunity.apply_delta_to_neighbors (base_neighbors : List Nat)
    (delta : DeltaLog) : List Nat :=
  if delta.ops.isEmpty then base_neighbors
  else
    let state0 := base_neighbors.foldl setInsert []
    let final := delta.ops.foldl applyOpToSet state0
    final.mergeSort (fun a b => a ≤ b)

/-- Set semantics of one delta operation over a finite set, following
the wording of the specification (Add inserts, Remove erases, unknown
op types are ignored). -/
def applyOpToFinset (s : Finset Nat) (op : DeltaOperation) : Finset Nat :=
  if op.op_type = 0 then insert op.neighbor s
  else if op.op_type = 1 then s.erase op.neighbor
  else s

/-- The set obtained by taking the base neighbors as a set and applying
every delta operation in order; the reference point the claim compares
read_out_neighbor_clone against. -/
def deltaFinset (base_neighbors : List Nat) (ops : List DeltaOperation) : Finset Nat :=
  ops.foldl applyOpToFinset base_neighbors.toFinset

/-- LsmCommunity::read_out_neighbor_clone, given the materialized base
iterator and the optional delta log of the vertex: without a delta log
the base list is returned untouched, otherwise the delta is applied. -/
def LsmCommunity.read_out_neighbor_clone (base_neighbors : List Nat)
    (delta_opt : Option DeltaLog) : List Nat :=
  match delta_opt with
  | none => base_neighbors
  | some delta => LsmCommunity.apply_delta_to_neighbors base_neighbors delta

/-! ## BFS over the base graph (lsm-storage/src/algorithms/bfs.rs) -/

/-- The mark_visited closure of LsmCommunity::bfs: set bit vid%64 of
word vid/64 of the bitmap, silently skipping an out-of-range word. -/
def bfsMark (visited : List Nat) (vid : Nat) : List Nat :=
  let idx := vid / 64
  let bit := vid % 64
  if idx < visited.length then
    visited.set idx ((visited.getD idx 0) ||| (1 <<< bit))
  else visited

/-- The is_visited closure of LsmCommunity::bfs. -/
def bfsTest (visited : List Nat) (vid : Nat) : Bool :=
  let idx := vid / 64
  let bit := vid % 64
  decide (idx < visited.length) && ((visited.getD idx 0) &&& (1 <<< bit) != 0)

/-- The for loop over the popped vertex's neighbors: an unvisited
neighbor is marked and appended, with the next distance, to both the
queue and the result. -/
def bfsStep (dist : Nat) :
    List Nat → List (Nat × Nat) → List (Nat × Nat) → List Nat →
      (List Nat × List (Nat × Nat) × List (Nat × Nat))
  | visited, queue, result, [] => (visited, queue, result)
  | visited, queue, result, nb :: rest =>
    if bfsTest visited nb then bfsStep dist visited queue result rest
    else bfsStep dist (bfsMark visited nb) (queue ++ [(nb, dist + 1)])
      (result ++ [(nb, dist + 1)]) rest

/-- The while let loop of LsmCommunity::bfs, with explicit fuel (one
unit per pop; Lean's totality checker cannot take the source's while
loop as is). The Bool records whether the queue was drained; the
correctness theorem proves the fuel supplied by bfs always drains it.
A vertex whose read fails or returns none is skipped (the two continue
arms of the source). -/
def bfsLoop (lookup : Nat → Option (List Nat)) :
    Nat → List Nat → List (Nat × Nat) → List (Nat × Nat) →
      (List (Nat × Nat) × Bool)
  | 0, _, _, result => (result, false)
  | _ + 1, _, [], result => (result, true)
  | fuel + 1, visited, (vid, dist) :: queue, result =>
    match lookup vid with
    | none => bfsLoop lookup fuel visited queue result
    | some ns =>
      let st := bfsStep dist visited queue result ns
      bfsLoop lookup fuel st.1 st.2.1 st.2.2

/-- LsmCommunity::bfs over the base graph: V is the vertex count, adj
the base neighbor list of each existing vertex, and the neighbor read
returns none for a non-existing vertex. An invalid start returns the
empty vector; otherwise the start is marked and seeded into queue and
result with distance 0 and the loop runs with V + 1 units of fuel. -/
def LsmCommunity.bfs (V : Nat) (adj : Nat → List Nat) (start : Nat) :
    List (Nat × Nat) :=
  if start < V then
    (bfsLoop (fun v => if v < V then some (adj v) else none) (V + 1)
      (bfsMark (List.replicate ((V + 63) / 64) 0) start)
      [(start, 0)] [(start, 0)]).1
  else []

/-- Directed paths of the base graph: NSteps adj s v d holds when v is
reachable from s in exactly d hops. -/
inductive NSteps (adj : Nat → List Nat) (s : Nat) : Nat → Nat → Prop
  | refl : NSteps adj s s 0
  | step {w v : Nat} {d : Nat} :
      NSteps adj s w d → v ∈ adj w → NSteps adj s v (d + 1)

/-! ## Theorems -/

/-- C4 counterexample: the low 48 bits of the Normal record packed from
(virtual_comm_id 1, page_id 0, offset 0) are 0, while the cache key
CacheKey::new(1, 0) is 1 shifted left by 32; so the low 48 bits of a
Normal record are not bit-identical to the cache key. -/
theorem normal_item_low48_ne_cache_key :
    ¬ VertexIndexItem.normal 1 0 0 % 2 ^ 48 = CacheKey.new 1 0 := by
  decide

/-- C4 (amended): for every Normal record the bits above the offset
field, that is the packed value shifted right by 16, are bit-identical
to the cache key CacheKey::new(virtual_comm_id, page_id); this is
exactly how VertexIndexItem::to_cache_key derives the key. (The claim
placed the key in the low 48 bits; it lives in bits 63..16.) -/
theorem normal_item_shifted_eq_cache_key (virtual_comm_id page_id offset : Nat) :
    VertexIndexItem.normal virtual_comm_id page_id offset >>> 16 =
      CacheKey.new virtual_comm_id page_id := by
  unfold VertexIndexItem.normal CacheKey.new
  have hv : virtual_comm_id % 2 ^ 16 < 2 ^ 16 := Nat.mod_lt _ (by norm_num)
  have hp : page_id % 2 ^ 32 < 2 ^ 32 := Nat.mod_lt _ (by norm_num)
  have ho : offset % 2 ^ 16 < 2 ^ 16 := Nat.mod_lt _ (by norm_num)
  have h1 : (virtual_comm_id % 2 ^ 16) <<< 48 ||| (page_id % 2 ^ 32) <<< 16 =
      2 ^ 48 * (virtual_comm_id % 2 ^ 16) + (page_id % 2 ^ 32) * 2 ^ 16 := by
    rw [Nat.shiftLeft_eq, Nat.shiftLeft_eq, Nat.mul_comm]
    exact (Nat.mul_add_lt_is_or (by nlinarith) _).symm
  have h2 : 2 ^ 48 * (virtual_comm_id % 2 ^ 16) + (page_id % 2 ^ 32) * 2 ^ 16 =
      2 ^ 16 * (2 ^ 32 * (virtual_comm_id % 2 ^ 16) + page_id % 2 ^ 32) := by ring
  have h3 : (2 ^ 16 * (2 ^ 32 * (virtual_comm_id % 2 ^ 16) + page_id % 2 ^ 32)) |||
      (offset % 2 ^ 16) =
      2 ^ 16 * (2 ^ 32 * (virtual_comm_id % 2 ^ 16) + page_id % 2 ^ 32) +
        offset % 2 ^ 16 :=
    (Nat.mul_add_lt_is_or ho _).symm
  have h4 : (virtual_comm_id % 2 ^ 16) <<< 32 ||| page_id % 2 ^ 32 =
      2 ^ 32 * (virtual_comm_id % 2 ^ 16) + page_id % 2 ^ 32 := by
    rw [Nat.shiftLeft_eq, Nat.mul_comm]
    exact (Nat.mul_add_lt_is_or hp _).symm
  rw [h1, h2, h3, h4, Nat.shiftRight_eq_div_pow, Nat.mul_add_div (by norm_num),
    Nat.div_eq_of_lt ho, Nat.add_zero]

/-- C2: insert_edge called with a source vertex id that is out of range
(here a one-vertex store and src 1) panics inside check_vertex_state,
which indexes vertex_array without a bounds check; it does not return
the tagged error value the claim promises. When both endpoints exist the
AddNeighbor delta operation is appended, as the second conjunct shows at
src 0, dst 0. -/
theorem insert_edge_panics_on_out_of_range_vertex :
    LsmCommunity.insert_edge [VertexIndexItem.giant] 1 0 42 = .panicked ∧
      LsmCommunity.insert_edge [VertexIndexItem.giant] 1 0 42 ≠ .failed ∧
      LsmCommunity.insert_edge [VertexIndexItem.giant] 0 0 42 =
        .appended (DeltaOperation.new 42 0 0) := by
  decide

/-- C3: on an empty BlockBuilder with block_size 16, add_vertex admits a
vertex whose entry needs 20 bytes and returns true (the escape hatch),
but the subsequent build() panics: the assertion inside Block::new
rejects data larger than block_size, so no block with the oversized
vertex is ever produced. -/
theorem oversized_vertex_admitted_then_build_panic :
    (BlockBuilder.add_vertex (BlockBuilder.new 16) 0 [1, 2]).2 = true ∧
      BlockBuilder.build (BlockBuilder.add_vertex (BlockBuilder.new 16) 0 [1, 2]).1 =
        none := by
  decide

/-- C5: starting from an empty index, add_giant_vertex returns vertex 0,
but community_map records the length of community_list after the push
(1) instead of the index of the new singleton community (0); the
subsequent community_search(0) therefore finds no community at index 1
and panics on the unwrap, instead of returning the singleton. -/
theorem add_giant_vertex_then_community_search_panics :
    (VertexIndex.add_giant_vertex ⟨0, 0, [], [], [], []⟩).2 = 0 ∧
      LsmCommunity.community_search
        (VertexIndex.add_giant_vertex ⟨0, 0, [], [], [], []⟩).1 0 = none := by
  decide

/-- C1: DeltaLog::merge applied to a single log returns it unchanged,
bypassing the last-write-wins reduction: both operations on neighbor 5
survive, where the claim demands that only the one with the maximal
timestamp (2) survives. -/
theorem delta_merge_single_log_keeps_duplicate_neighbor :
    DeltaLog.merge [⟨[⟨1, 5, 0⟩, ⟨2, 5, 1⟩]⟩] = ⟨[⟨1, 5, 0⟩, ⟨2, 5, 1⟩]⟩ ∧
      ((DeltaLog.merge [⟨[⟨1, 5, 0⟩, ⟨2, 5, 1⟩]⟩]).ops.filter
        (fun op => op.neighbor == 5)).length = 2 := by
  decide

/-- C9 counterexample: a vertex whose base neighbor list is [3, 1] and
which has no delta log: read_out_neighbor_clone returns the base list
untouched, which is not sorted ascending (and is not the sorted set the
claim describes). -/
theorem read_out_neighbor_clone_unsorted_cex :
    LsmCommunity.read_out_neighbor_clone [3, 1] none = [3, 1] ∧
      ¬ List.Sorted (fun a b => a ≤ b)
        (LsmCommunity.read_out_neighbor_clone [3, 1] none) := by
  constructor
  · rfl
  · intro h
    exact absurd (List.rel_of_sorted_cons h 1 (by decide)) (by decide)

/-- C10 counterexample: a Normal vertex stored in a base block with
neighbors [1, 2]: when mem_graph maps the vertex to the non-empty list
[42], the iterator's output changes (it yields 42 first), so the read
path does consult the MemGraph contents. -/
theorem neighbor_iter_consults_mem_graph_cex :
    (Block.new [(7, 0)] [1, 2] 20).map
        (fun blk => global_neighbor_list [42] (some blk) (some 0)) ≠
      (Block.new [(7, 0)] [1, 2] 20).map
        (fun blk => global_neighbor_list [] (some blk) (some 0)) := by
  decide

/-- C10 (amended): the iterator built by get_neighbor_iter yields the
MemGraph neighbors of the vertex first and the base-block neighbors
after them; its output equals the base-block output exactly when the
MemGraph list of the vertex is empty (which is the only state the
current engine ever produces, as nothing writes to MemGraph). -/
theorem neighbor_iter_mem_prefix (mem_neighbors : List Nat) (block : Option Block)
    (vertex_offset : Option Nat) :
    global_neighbor_list mem_neighbors block vertex_offset =
      mem_neighbors ++ global_neighbor_list [] block vertex_offset := by
  simp [global_neighbor_list]

theorem mem_setInsert {s : List Nat} {x v : Nat} :
    v ∈ setInsert s x ↔ v = x ∨ v ∈ s := by
  unfold setInsert
  split
  · rename_i h
    constructor
    · exact Or.inr
    · rintro (rfl | hv)
      · exact h
      · exact hv
  · simp [or_comm]

theorem nodup_setInsert {s : List Nat} (h : s.Nodup) (x : Nat) :
    (setInsert s x).Nodup := by
  unfold setInsert
  split
  · exact h
  · rename_i hx
    simp [List.nodup_append, h, hx]

/-- The seeding fold of apply_delta_to_neighbors builds a duplicate-free
list whose members are the start set plus the base neighbors. -/
theorem baseFold_spec (l : List Nat) :
    ∀ s : List Nat, s.Nodup →
      ((l.foldl setInsert s).Nodup ∧
        ∀ v, v ∈ l.foldl setInsert s ↔ v ∈ s ∨ v ∈ l) := by
  induction l with
  | nil => intro s hs; exact ⟨hs, by simp⟩
  | cons a t ih =>
    intro s hs
    have h1 := ih (setInsert s a) (nodup_setInsert hs a)
    refine ⟨h1.1, fun v => ?_⟩
    rw [List.foldl_cons, h1.2 v, mem_setInsert]
    simp only [List.mem_cons]
    tauto

/-- The delta fold of apply_delta_to_neighbors preserves freedom from
duplicates and mirrors, member for member, the set-semantics fold. -/
theorem opsFold_spec (ops : List DeltaOperation) :
    ∀ (s : List Nat) (fs : Finset Nat), s.Nodup → (∀ v, v ∈ s ↔ v ∈ fs) →
      ((ops.foldl applyOpToSet s).Nodup ∧
        ∀ v, v ∈ ops.foldl applyOpToSet s ↔ v ∈ ops.foldl applyOpToFinset fs) := by
  induction ops with
  | nil => intro s fs hs hm; exact ⟨hs, hm⟩
  | cons op t ih =>
    intro s fs hs hm
    simp only [List.foldl_cons]
    apply ih
    · unfold applyOpToSet
      split
      · exact nodup_setInsert hs _
      · split
        · exact hs.erase _
        · exact hs
    · intro v
      unfold applyOpToSet applyOpToFinset
      split
      · rw [mem_setInsert, Finset.mem_insert, hm v]
      · split
        · rw [hs.mem_erase_iff, Finset.mem_erase, hm v]
        · exact hm v

/-- C9 (amended): when the vertex has a delta log with at least one
operation (its operations sorted by timestamp, as the delta-log
invariant demands), read_out_neighbor_clone returns a sorted,
duplicate-free list whose members are exactly the set obtained from the
base neighbors by applying each delta operation in timestamp order (Add
inserts, Remove erases, unknown op types are ignored). Without a delta
log, or with an empty one, the base list is returned unchanged instead,
as the counterexample shows. -/
theorem read_out_neighbor_clone_delta_sorted (base_neighbors : List Nat)
    (log : DeltaLog)
    (hsorted : log.ops.Pairwise (fun a b => a.timestamp ≤ b.timestamp))
    (hne : log.ops ≠ []) :
    List.Sorted (fun a b => a ≤ b)
        (LsmCommunity.read_out_neighbor_clone base_neighbors (some log)) ∧
      (LsmCommunity.read_out_neighbor_clone base_neighbors (some log)).Nodup ∧
      ∀ v, v ∈ LsmCommunity.read_out_neighbor_clone base_neighbors (some log) ↔
        v ∈ deltaFinset base_neighbors log.ops := by
  have hb := baseFold_spec base_neighbors [] List.nodup_nil
  have hbm : ∀ v, v ∈ base_neighbors.foldl setInsert [] ↔
      v ∈ base_neighbors.toFinset := by
    intro v
    rw [hb.2 v]
    simp
  have hf := opsFold_spec log.ops _ _ hb.1 hbm
  have hred : LsmCommunity.read_out_neighbor_clone base_neighbors (some log) =
      (log.ops.foldl applyOpToSet (base_neighbors.foldl setInsert [])).mergeSort
        (fun a b => a ≤ b) := by
    have hEmpty : log.ops.isEmpty = false := by simp [List.isEmpty_iff, hne]
    simp [LsmCommunity.read_out_neighbor_clone,
      LsmCommunity.apply_delta_to_neighbors, hEmpty]
  rw [hred]
  have hperm := List.mergeSort_perm
    (log.ops.foldl applyOpToSet (base_neighbors.foldl setInsert []))
    (fun a b => a ≤ b)
  refine ⟨?_, ?_, ?_⟩
  · have hs := @List.sorted_mergeSort Nat (fun a b : Nat => decide (a ≤ b))
      (fun a b c h1 h2 => by
        simp only [decide_eq_true_eq] at h1 h2 ⊢
        omega)
      (fun a b => by
        simp only [Bool.or_eq_true, decide_eq_true_eq]
        omega)
      (log.ops.foldl applyOpToSet (base_neighbors.foldl setInsert []))
    exact hs.imp (fun h => by simpa using h)
  · exact hperm.nodup_iff.mpr hf.1
  · intro v
    rw [hperm.mem_iff, hf.2 v]
    rfl

theorem length_leBytes (w n : Nat) : (leBytes w n).length = w := by
  induction w generalizing n with
  | zero => rfl
  | succ w ih => simp [leBytes, ih]

theorem leVal_leBytes (w n : Nat) : leVal (leBytes w n) = n % 2 ^ (8 * w) := by
  induction w generalizing n with
  | zero => simp [leBytes, leVal, Nat.mod_one]
  | succ w ih =>
    have h256 : (2 : Nat) ^ (8 * (w + 1)) = 256 * 2 ^ (8 * w) := by ring
    simp only [leBytes, leVal, ih]
    rw [h256, Nat.mod_mul]

theorem length_delta_encode (op : DeltaOperation) : op.encode.length = 16 := by
  simp [DeltaOperation.encode, length_leBytes]

theorem delta_decode_encode (op : DeltaOperation) (hwf : op.wf) :
    DeltaOperation.decode op.encode = some op := by
  obtain ⟨hts, hnb, hot⟩ := hwf
  have hlen : op.encode.length = 16 := length_delta_encode op
  unfold DeltaOperation.decode
  rw [if_pos hlen]
  unfold DeltaOperation.encode at *
  have h8 : (leBytes 8 op.timestamp).length = 8 := length_leBytes _ _
  have h4 : (leBytes 4 op.neighbor).length = 4 := length_leBytes _ _
  have htake8 : (leBytes 8 op.timestamp ++
      (leBytes 4 op.neighbor ++ leBytes 4 op.op_type)).take 8 =
      leBytes 8 op.timestamp := List.take_left' h8
  have hdrop8 : (leBytes 8 op.timestamp ++
      (leBytes 4 op.neighbor ++ leBytes 4 op.op_type)).drop 8 =
      leBytes 4 op.neighbor ++ leBytes 4 op.op_type := List.drop_left' h8
  have htake4 : (leBytes 4 op.neighbor ++ leBytes 4 op.op_type).take 4 =
      leBytes 4 op.neighbor := List.take_left' h4
  have hdrop12 : (leBytes 8 op.timestamp ++
      (leBytes 4 op.neighbor ++ leBytes 4 op.op_type)).drop 12 =
      leBytes 4 op.op_type := by
    have h12 : (12 : Nat) = 8 + 4 := rfl
    rw [h12, ← List.drop_drop, hdrop8, List.drop_left' h4]
  simp only [List.append_assoc, htake8, hdrop8, htake4, hdrop12, leVal_leBytes]
  have hts' : op.timestamp % 2 ^ (8 * 8) = op.timestamp := Nat.mod_eq_of_lt hts
  have hnb' : op.neighbor % 2 ^ (8 * 4) = op.neighbor := Nat.mod_eq_of_lt hnb
  have hot' : op.op_type % 2 ^ (8 * 4) = op.op_type :=
    Nat.mod_eq_of_lt (by rcases hot with h | h <;> simp [h])
  rw [hts', hnb', hot', if_pos hot]

theorem length_encode_batch (ops : List DeltaOperation) :
    (DeltaOperation.encode_batch ops).length = 16 * ops.length := by
  induction ops with
  | nil => rfl
  | cons op t ih =>
    simp [DeltaOperation.encode_batch, List.flatMap_cons, length_delta_encode] at *
    omega

theorem decodeChunks_encode_batch (ops : List DeltaOperation)
    (hwf : ∀ op ∈ ops, op.wf) :
    decodeChunks (DeltaOperation.encode_batch ops) = some ops := by
  induction ops with
  | nil =>
    rw [show DeltaOperation.encode_batch [] = [] from rfl, decodeChunks]
    simp
  | cons op t ih =>
    have hne : DeltaOperation.encode_batch (op :: t) ≠ [] := by
      intro h
      have := congrArg List.length h
      rw [length_encode_batch] at this
      simp at this
    have hbatch : DeltaOperation.encode_batch (op :: t) =
        op.encode ++ DeltaOperation.encode_batch t := by
      simp [DeltaOperation.encode_batch, List.flatMap_cons]
    have htake : (DeltaOperation.encode_batch (op :: t)).take 16 = op.encode := by
      rw [hbatch, List.take_left' (length_delta_encode op)]
    have hdrop : (DeltaOperation.encode_batch (op :: t)).drop 16 =
        DeltaOperation.encode_batch t := by
      rw [hbatch, List.drop_left' (length_delta_encode op)]
    rw [decodeChunks]
    rw [dif_neg hne, htake, hdrop,
      delta_decode_encode op (hwf op (by simp)),
      ih (fun o ho => hwf o (by simp [ho]))]

theorem decode_batch_encode_batch (ops : List DeltaOperation)
    (hwf : ∀ op ∈ ops, op.wf) :
    DeltaOperation.decode_batch (DeltaOperation.encode_batch ops) = some ops := by
  unfold DeltaOperation.decode_batch
  rw [if_pos (by rw [length_encode_batch]; omega), decodeChunks_encode_batch ops hwf]

theorem log_decode_encode (log : DeltaLog) (hwf : ∀ op ∈ log.ops, op.wf)
    (hlen : log.ops.length < 2 ^ 32) :
    DeltaLog.decode log.encode = some log := by
  have h4 : (leBytes 4 log.ops.length).length = 4 := length_leBytes _ _
  have henc : log.encode =
      leBytes 4 log.ops.length ++ DeltaOperation.encode_batch log.ops := rfl
  have hlength : log.encode.length = 4 + 16 * log.ops.length := by
    rw [henc]
    simp [h4, length_encode_batch]
  unfold DeltaLog.decode
  rw [if_neg (by omega)]
  have htake : log.encode.take 4 = leBytes 4 log.ops.length := by
    rw [henc, List.take_left' h4]
  have hdrop : log.encode.drop 4 = DeltaOperation.encode_batch log.ops := by
    rw [henc, List.drop_left' h4]
  rw [htake, leVal_leBytes]
  have hcount : log.ops.length % 2 ^ (8 * 4) = log.ops.length :=
    Nat.mod_eq_of_lt hlen
  rw [hcount, if_pos (by omega), hdrop, decode_batch_encode_batch log.ops hwf]

/-- C9 witness: the amended theorem applied to base neighbors [3, 1, 3]
and the delta log [Add 9 at 1, Remove 3 at 2]. -/
theorem read_out_neighbor_clone_delta_sorted_witness :
    (DeltaLog.mk [⟨1, 9, 0⟩, ⟨2, 3, 1⟩]).ops.Pairwise
        (fun a b => a.timestamp ≤ b.timestamp) ∧
      (DeltaLog.mk [⟨1, 9, 0⟩, ⟨2, 3, 1⟩]).ops ≠ [] ∧
      (List.Sorted (fun a b => a ≤ b)
          (LsmCommunity.read_out_neighbor_clone [3, 1, 3]
            (some ⟨[⟨1, 9, 0⟩, ⟨2, 3, 1⟩]⟩)) ∧
        (LsmCommunity.read_out_neighbor_clone [3, 1, 3]
            (some ⟨[⟨1, 9, 0⟩, ⟨2, 3, 1⟩]⟩)).Nodup ∧
        ∀ v, v ∈ LsmCommunity.read_out_neighbor_clone [3, 1, 3]
            (some ⟨[⟨1, 9, 0⟩, ⟨2, 3, 1⟩]⟩) ↔
          v ∈ deltaFinset [3, 1, 3] [⟨1, 9, 0⟩, ⟨2, 3, 1⟩]) :=
  ⟨by decide, by decide,
    read_out_neighbor_clone_delta_sorted [3, 1, 3] ⟨[⟨1, 9, 0⟩, ⟨2, 3, 1⟩]⟩
      (by decide) (by decide)⟩

theorem fst_replaceIfNewer (op : DeltaOperation) (p : Nat × DeltaOperation) :
    (replaceIfNewer op p).1 = p.1 := by
  unfold replaceIfNewer
  split <;> rfl

theorem any_key_map_replace (m : List (Nat × DeltaOperation)) (op : DeltaOperation)
    (k : Nat) :
    (m.map (replaceIfNewer op)).any (fun p => p.1 == k) =
      m.any (fun p => p.1 == k) := by
  induction m with
  | nil => rfl
  | cons p t ih => simp [fst_replaceIfNewer, ih]

theorem map_replace_of_absent (m : List (Nat × DeltaOperation)) (op : DeltaOperation)
    (h : m.any (fun p => p.1 == op.neighbor) = false) :
    m.map (replaceIfNewer op) = m := by
  have hmem : ∀ p ∈ m, replaceIfNewer op p = p := by
    intro p hp
    have hne : ¬ p.1 = op.neighbor := by
      have := List.any_eq_false.mp h p hp
      simpa using this
    unfold replaceIfNewer
    rw [if_neg]
    tauto
  have hmap : m.map (replaceIfNewer op) = m.map id :=
    List.map_congr_left (fun p hp => hmem p hp)
  rw [hmap, List.map_id]

theorem replaceIfNewer_comm (o1 o2 : DeltaOperation)
    (hts : o1.timestamp ≠ o2.timestamp) (p : Nat × DeltaOperation) :
    replaceIfNewer o2 (replaceIfNewer o1 p) = replaceIfNewer o1 (replaceIfNewer o2 p) := by
  rcases p with ⟨k, v⟩
  unfold replaceIfNewer
  by_cases h1 : k = o1.neighbor <;> by_cases h2 : k = o2.neighbor <;>
    split_ifs <;> simp_all <;> omega

theorem any_perm_key {m1 m2 : List (Nat × DeltaOperation)} (h : m1.Perm m2)
    (k : Nat) : m1.any (fun p => p.1 == k) = m2.any (fun p => p.1 == k) := by
  cases hb : m2.any (fun p => p.1 == k) with
  | true =>
    obtain ⟨x, hx, hpx⟩ := List.any_eq_true.mp hb
    exact List.any_eq_true.mpr ⟨x, h.mem_iff.mpr hx, hpx⟩
  | false =>
    rw [List.any_eq_false] at hb ⊢
    intro x hx
    exact hb x (h.mem_iff.mp hx)

theorem updateLatest_perm_acc {m1 m2 : List (Nat × DeltaOperation)} (h : m1.Perm m2)
    (op : DeltaOperation) : (updateLatest m1 op).Perm (updateLatest m2 op) := by
  unfold updateLatest
  by_cases hc : m2.any (fun p => p.1 == op.neighbor) = true
  · rw [any_perm_key h, if_pos hc, if_pos hc]
    exact h.map _
  · rw [any_perm_key h, if_neg hc, if_neg hc]
    exact h.append_right _

theorem foldl_updateLatest_perm_acc (l : List DeltaOperation) :
    ∀ {m1 m2 : List (Nat × DeltaOperation)}, m1.Perm m2 →
      (l.foldl updateLatest m1).Perm (l.foldl updateLatest m2) := by
  induction l with
  | nil => intro m1 m2 h; exact h
  | cons op t ih => intro m1 m2 h; exact ih (updateLatest_perm_acc h op)

theorem updateLatest_present (m : List (Nat × DeltaOperation)) (op : DeltaOperation)
    (h : m.any (fun p => p.1 == op.neighbor) = true) :
    updateLatest m op = m.map (replaceIfNewer op) := by
  unfold updateLatest
  rw [if_pos h]

theorem updateLatest_absent (m : List (Nat × DeltaOperation)) (op : DeltaOperation)
    (h : m.any (fun p => p.1 == op.neighbor) = false) :
    updateLatest m op = m ++ [(op.neighbor, op)] := by
  unfold updateLatest
  rw [if_neg (by simp [h])]

theorem replace_keeps_other_key (o1 : DeltaOperation) (k : Nat) (v : DeltaOperation)
    (hne : ¬ k = o1.neighbor) :
    replaceIfNewer o1 (k, v) = (k, v) := by
  unfold replaceIfNewer
  rw [if_neg]
  simp [hne]

theorem updateLatest_swap (m : List (Nat × DeltaOperation)) (o1 o2 : DeltaOperation)
    (hts : o1.timestamp ≠ o2.timestamp) :
    (updateLatest (updateLatest m o1) o2).Perm (updateLatest (updateLatest m o2) o1) := by
  by_cases keq : o2.neighbor = o1.neighbor
  · by_cases h1 : m.any (fun p => p.1 == o1.neighbor) = true
    · have h2 : m.any (fun p => p.1 == o2.neighbor) = true := by rw [keq]; exact h1
      have hcomm : m.map (replaceIfNewer o2 ∘ replaceIfNewer o1) =
          m.map (replaceIfNewer o1 ∘ replaceIfNewer o2) :=
        List.map_congr_left (fun p _ => replaceIfNewer_comm o1 o2 hts p)
      rw [updateLatest_present m o1 h1, updateLatest_present m o2 h2,
        updateLatest_present _ o2 (by rw [any_key_map_replace]; exact h2),
        updateLatest_present _ o1 (by rw [any_key_map_replace]; exact h1),
        List.map_map, List.map_map, hcomm]
    · have h1' : m.any (fun p => p.1 == o1.neighbor) = false := by
        rwa [← Bool.not_eq_true]
      have h2' : m.any (fun p => p.1 == o2.neighbor) = false := by rw [keq]; exact h1'
      have ha : (m ++ [(o1.neighbor, o1)]).any (fun p => p.1 == o2.neighbor) = true := by
        simp [List.any_append, keq]
      have hb : (m ++ [(o2.neighbor, o2)]).any (fun p => p.1 == o1.neighbor) = true := by
        simp [List.any_append, keq]
      rw [updateLatest_absent m o1 h1', updateLatest_absent m o2 h2',
        updateLatest_present _ o2 ha, updateLatest_present _ o1 hb,
        List.map_append, List.map_append,
        map_replace_of_absent m o2 h2', map_replace_of_absent m o1 h1']
      have hwin : [(o1.neighbor, o1)].map (replaceIfNewer o2) =
          [(o2.neighbor, o2)].map (replaceIfNewer o1) := by
        unfold replaceIfNewer
        rcases Nat.lt_or_ge o1.timestamp o2.timestamp with hlt | hge
        · rw [List.map_singleton, List.map_singleton, if_pos (by simp [keq, hlt]),
            if_neg (by simp only [not_and]; intro _; omega), keq]
        · have hgt : o2.timestamp < o1.timestamp := by omega
          rw [List.map_singleton, List.map_singleton,
            if_neg (by simp only [not_and]; intro _; omega),
            if_pos (by simp [keq, hgt]), keq]
      rw [hwin]
  · have kne1 : ¬ o1.neighbor = o2.neighbor := fun h => keq h.symm
    by_cases h1 : m.any (fun p => p.1 == o1.neighbor) = true
    · by_cases h2 : m.any (fun p => p.1 == o2.neighbor) = true
      · have hcomm : m.map (replaceIfNewer o2 ∘ replaceIfNewer o1) =
            m.map (replaceIfNewer o1 ∘ replaceIfNewer o2) :=
          List.map_congr_left (fun p _ => replaceIfNewer_comm o1 o2 hts p)
        rw [updateLatest_present m o1 h1, updateLatest_present m o2 h2,
          updateLatest_present _ o2 (by rw [any_key_map_replace]; exact h2),
          updateLatest_present _ o1 (by rw [any_key_map_replace]; exact h1),
          List.map_map, List.map_map, hcomm]
      · have h2' : m.any (fun p => p.1 == o2.neighbor) = false := by
          rwa [← Bool.not_eq_true]
        rw [updateLatest_present m o1 h1, updateLatest_absent m o2 h2',
          updateLatest_absent _ o2 (by rw [any_key_map_replace]; exact h2'),
          updateLatest_present _ o1 (by simp [List.any_append, h1]),
          List.map_append, List.map_singleton, replace_keeps_other_key o1 _ _ keq]
    · have h1' : m.any (fun p => p.1 == o1.neighbor) = false := by
        rwa [← Bool.not_eq_true]
      by_cases h2 : m.any (fun p => p.1 == o2.neighbor) = true
      · rw [updateLatest_absent m o1 h1', updateLatest_present m o2 h2,
          updateLatest_present _ o2 (by simp [List.any_append, h2]),
          updateLatest_absent _ o1 (by rw [any_key_map_replace]; exact h1'),
          List.map_append, List.map_singleton, replace_keeps_other_key o2 _ _ kne1]
      · have h2' : m.any (fun p => p.1 == o2.neighbor) = false := by
          rwa [← Bool.not_eq_true]
        have ha : (m ++ [(o1.neighbor, o1)]).any (fun p => p.1 == o2.neighbor) = false := by
          simp [List.any_append, h2']
          simpa using kne1
        have hb : (m ++ [(o2.neighbor, o2)]).any (fun p => p.1 == o1.neighbor) = false := by
          simp [List.any_append, h1']
          simpa using keq
        rw [updateLatest_absent m o1 h1', updateLatest_absent m o2 h2',
          updateLatest_absent _ o2 ha, updateLatest_absent _ o1 hb,
          List.append_assoc, List.append_assoc]
        exact List.Perm.append_left m
          (List.Perm.swap (o2.neighbor, o2) (o1.neighbor, o1) [])

theorem foldl_updateLatest_perm_input {l1 l2 : List DeltaOperation} (h : l1.Perm l2) :
    (l1.map (fun op => op.timestamp)).Nodup →
      ∀ m, (l1.foldl updateLatest m).Perm (l2.foldl updateLatest m) := by
  induction h with
  | nil => intro _ m; exact .refl _
  | cons x h ih =>
    intro hts m
    simp only [List.map_cons, List.nodup_cons] at hts
    simp only [List.foldl_cons]
    exact ih hts.2 (updateLatest m x)
  | swap x y l =>
    intro hts m
    simp only [List.map_cons, List.nodup_cons, List.mem_cons] at hts
    have hxy : y.timestamp ≠ x.timestamp := fun he => hts.1 (Or.inl he)
    simp only [List.foldl_cons]
    exact foldl_updateLatest_perm_acc l (updateLatest_swap m y x hxy)
  | trans h1 h2 ih1 ih2 =>
    intro hts m
    have hts2 := ((h1.map (fun op => op.timestamp)).nodup_iff).mp hts
    exact (ih1 hts m).trans (ih2 hts2 m)

theorem updateLatest_snd_subset (m : List (Nat × DeltaOperation))
    (op : DeltaOperation) (pr : Nat × DeltaOperation)
    (hpr : pr ∈ updateLatest m op) :
    pr.2 ∈ m.map Prod.snd ∨ pr.2 = op := by
  unfold updateLatest at hpr
  split at hpr
  · rcases List.mem_map.mp hpr with ⟨q, hq, hqe⟩
    by_cases hc : q.1 = op.neighbor ∧ q.2.timestamp < op.timestamp
    · right
      rw [← hqe]
      unfold replaceIfNewer
      rw [if_pos hc]
    · left
      rw [← hqe]
      unfold replaceIfNewer
      rw [if_neg hc]
      exact List.mem_map.mpr ⟨q, hq, rfl⟩
  · rcases List.mem_append.mp hpr with hm | he
    · exact Or.inl (List.mem_map.mpr ⟨pr, hm, rfl⟩)
    · right
      have hpe : pr = (op.neighbor, op) := by simpa using he
      rw [hpe]

theorem foldl_snd_subset (l : List DeltaOperation) :
    ∀ m pr, pr ∈ l.foldl updateLatest m → pr.2 ∈ m.map Prod.snd ∨ pr.2 ∈ l := by
  induction l with
  | nil => intro m pr h; exact Or.inl (List.mem_map.mpr ⟨pr, h, rfl⟩)
  | cons op t ih =>
    intro m pr h
    rcases ih (updateLatest m op) pr h with hin | hl
    · rcases List.mem_map.mp hin with ⟨q, hq, hq2⟩
      rcases updateLatest_snd_subset m op q hq with hq3 | hq4
      · exact Or.inl (hq2 ▸ hq3)
      · right
        rw [← hq2, hq4]
        simp
    · exact Or.inr (by simp [hl])

theorem keys_map_replace (m : List (Nat × DeltaOperation)) (op : DeltaOperation) :
    (m.map (replaceIfNewer op)).map Prod.fst = m.map Prod.fst := by
  rw [List.map_map]
  exact List.map_congr_left (fun p _ => fst_replaceIfNewer op p)

theorem keys_nodup_foldl (l : List DeltaOperation) :
    ∀ m, (m.map Prod.fst).Nodup → ((l.foldl updateLatest m).map Prod.fst).Nodup := by
  induction l with
  | nil => intro m h; exact h
  | cons op t ih =>
    intro m h
    simp only [List.foldl_cons]
    apply ih
    unfold updateLatest
    split
    · rw [keys_map_replace]
      exact h
    · rename_i hany
      have hnot : ∀ q ∈ m, ¬ q.1 = op.neighbor := by
        have hfalse : m.any (fun p => p.1 == op.neighbor) = false := by
          rwa [← Bool.not_eq_true]
        intro q hq
        have := List.any_eq_false.mp hfalse q hq
        simpa using this
      rw [List.map_append]
      simp only [List.map_cons, List.map_nil]
      rw [List.nodup_append]
      refine ⟨h, by simp, ?_⟩
      intro x hx
      rcases List.mem_map.mp hx with ⟨q, hq, hqe⟩
      simp only [List.mem_singleton]
      intro hxk
      exact hnot q hq (by rw [hqe, hxk])

theorem entries_consistent_foldl (l : List DeltaOperation) :
    ∀ m, (∀ pr ∈ m, pr.2.neighbor = pr.1) →
      ∀ pr ∈ l.foldl updateLatest m, pr.2.neighbor = pr.1 := by
  induction l with
  | nil => intro m h; exact h
  | cons op t ih =>
    intro m h
    simp only [List.foldl_cons]
    apply ih
    intro pr hpr
    unfold updateLatest at hpr
    split at hpr
    · rcases List.mem_map.mp hpr with ⟨q, hq, hqe⟩
      by_cases hc : q.1 = op.neighbor ∧ q.2.timestamp < op.timestamp
      · rw [← hqe]
        unfold replaceIfNewer
        rw [if_pos hc]
        exact hc.1.symm
      · rw [← hqe]
        unfold replaceIfNewer
        rw [if_neg hc]
        exact h q hq
    · rcases List.mem_append.mp hpr with hm | he
      · exact h pr hm
      · have hpe : pr = (op.neighbor, op) := by simpa using he
        rw [hpe]

theorem values_ts_nodup (l : List DeltaOperation)
    (hts : (l.map (fun op => op.timestamp)).Nodup) :
    (((l.foldl updateLatest []).map Prod.snd).map
      (fun op => op.timestamp)).Nodup := by
  have hkeys : ((l.foldl updateLatest []).map Prod.fst).Nodup :=
    keys_nodup_foldl l [] (by simp)
  have hcons : ∀ pr ∈ l.foldl updateLatest [], pr.2.neighbor = pr.1 :=
    entries_consistent_foldl l [] (by simp)
  have hvalnodup : ((l.foldl updateLatest []).map Prod.snd).Nodup := by
    have hmapeq : (l.foldl updateLatest []).map (fun pr => pr.2.neighbor) =
        (l.foldl updateLatest []).map Prod.fst :=
      List.map_congr_left (fun pr hpr => hcons pr hpr)
    have h1 : ((l.foldl updateLatest []).map (fun pr => pr.2.neighbor)).Nodup :=
      hmapeq ▸ hkeys
    have h2 : (((l.foldl updateLatest []).map Prod.snd).map
        (fun op => op.neighbor)).Nodup := by
      rw [List.map_map]
      exact h1
    exact h2.of_map _
  have hsub : ∀ op ∈ (l.foldl updateLatest []).map Prod.snd, op ∈ l := by
    intro op hop
    rcases List.mem_map.mp hop with ⟨pr, hpr, hpe⟩
    rcases foldl_snd_subset l [] pr hpr with h0 | h1
    · simp at h0
    · exact hpe ▸ h1
  exact List.Nodup.map_on
    (fun x hx y hy hxy =>
      List.inj_on_of_nodup_map hts (hsub x hx) (hsub y hy) hxy)
    hvalnodup

theorem sorted_ts_nodup_eq {l1 l2 : List DeltaOperation} (h : l1.Perm l2)
    (hs1 : l1.Pairwise tsRel) (hs2 : l2.Pairwise tsRel)
    (hnd : (l1.map (fun op => op.timestamp)).Nodup) : l1 = l2 := by
  have hnd2 : (l2.map (fun op => op.timestamp)).Nodup :=
    ((h.map _).nodup_iff).mp hnd
  have hne1 : l1.Pairwise (fun a b => a.timestamp ≠ b.timestamp) :=
    List.pairwise_map.mp hnd
  have hne2 : l2.Pairwise (fun a b => a.timestamp ≠ b.timestamp) :=
    List.pairwise_map.mp hnd2
  have hlt1 : l1.Pairwise (fun a b => a.timestamp < b.timestamp) :=
    (hs1.and hne1).imp (fun hab => by
      simp only [tsRel] at hab
      omega)
  have hlt2 : l2.Pairwise (fun a b => a.timestamp < b.timestamp) :=
    (hs2.and hne2).imp (fun hab => by
      simp only [tsRel] at hab
      omega)
  exact @List.eq_of_perm_of_sorted DeltaOperation
    (fun a b => a.timestamp < b.timestamp)
    ⟨fun a b h1 h2 => absurd h2 (by omega)⟩ l1 l2 h hlt1 hlt2

theorem merge_cons_cons (a b : DeltaLog) (t : List DeltaLog) :
    DeltaLog.merge (a :: b :: t) =
      ⟨((((a :: b :: t).flatMap DeltaLog.ops).foldl updateLatest []).map
        Prod.snd).insertionSort tsRel⟩ := rfl

theorem merge_eq_of_flat_perm (a1 b1 : DeltaLog) (t1 : List DeltaLog)
    (a2 b2 : DeltaLog) (t2 : List DeltaLog)
    (hperm : ((a1 :: b1 :: t1).flatMap DeltaLog.ops).Perm
      ((a2 :: b2 :: t2).flatMap DeltaLog.ops))
    (hts : (((a1 :: b1 :: t1).flatMap DeltaLog.ops).map
      (fun op => op.timestamp)).Nodup) :
    DeltaLog.merge (a1 :: b1 :: t1) = DeltaLog.merge (a2 :: b2 :: t2) := by
  rw [merge_cons_cons, merge_cons_cons]
  congr 1
  have hfold := foldl_updateLatest_perm_input hperm hts []
  have hvals := hfold.map Prod.snd
  have hnd1 := values_ts_nodup _ hts
  have hp1 := List.perm_insertionSort tsRel
    ((((a1 :: b1 :: t1).flatMap DeltaLog.ops).foldl updateLatest []).map Prod.snd)
  have hp2 := List.perm_insertionSort tsRel
    ((((a2 :: b2 :: t2).flatMap DeltaLog.ops).foldl updateLatest []).map Prod.snd)
  apply sorted_ts_nodup_eq
  · exact (hp1.trans hvals).trans hp2.symm
  · exact List.sorted_insertionSort tsRel _
  · exact List.sorted_insertionSort tsRel _
  · exact ((hp1.map (fun op => op.timestamp)).nodup_iff).mpr hnd1

theorem decodeOperands_encode (opss : List (List DeltaOperation))
    (hwf : ∀ ops ∈ opss, ∀ op ∈ ops, op.wf) :
    decodeOperands (opss.map DeltaOperation.encode_batch) =
      some (opss.map DeltaLog.from_ops) := by
  induction opss with
  | nil => rfl
  | cons ops t ih =>
    simp only [List.map_cons, decodeOperands,
      decode_batch_encode_batch ops (hwf ops (by simp)),
      ih (fun o ho op hop => hwf o (by simp [ho]) op hop)]

theorem merge_for_rocksdb_none (opss : List (List DeltaOperation))
    (hwf : ∀ ops ∈ opss, ∀ op ∈ ops, op.wf) :
    DeltaLog.merge_for_rocksdb none (opss.map DeltaOperation.encode_batch) =
      some (DeltaLog.merge (opss.map DeltaLog.from_ops)).encode := by
  simp only [DeltaLog.merge_for_rocksdb, decodeOperands_encode opss hwf,
    List.nil_append]

theorem merge_for_rocksdb_some (base : DeltaLog) (opss : List (List DeltaOperation))
    (hwfb : ∀ op ∈ base.ops, op.wf) (hcount : base.ops.length < 2 ^ 32)
    (hwf : ∀ ops ∈ opss, ∀ op ∈ ops, op.wf) :
    DeltaLog.merge_for_rocksdb (some base.encode)
        (opss.map DeltaOperation.encode_batch) =
      some (DeltaLog.merge (base :: opss.map DeltaLog.from_ops)).encode := by
  simp only [DeltaLog.merge_for_rocksdb, log_decode_encode base hwfb hcount,
    decodeOperands_encode opss hwf, List.singleton_append]

/-- C8 counterexample: with no base value (the state of a key that has
only ever seen merge operands), partial-merging the two singleton
batches [Add 5 at 1] and [Remove 5 at 2] and then full-merging the
concatenation gives a log that still holds both operations (the
single-log shortcut of DeltaLog::merge skips the last-write-wins
reduction), while full-merging the two operands directly reduces them
to one operation - so the two paths yield different encoded results. -/
theorem partial_then_full_merge_no_base_cex :
    DeltaLog.partial_merge_for_rocksdb
        [DeltaOperation.encode_batch [⟨1, 5, 0⟩],
          DeltaOperation.encode_batch [⟨2, 5, 1⟩]] =
      some (DeltaOperation.encode_batch [⟨1, 5, 0⟩] ++
        DeltaOperation.encode_batch [⟨2, 5, 1⟩]) ∧
      DeltaLog.merge_for_rocksdb none
          [DeltaOperation.encode_batch [⟨1, 5, 0⟩] ++
            DeltaOperation.encode_batch [⟨2, 5, 1⟩]] ≠
        DeltaLog.merge_for_rocksdb none
          [DeltaOperation.encode_batch [⟨1, 5, 0⟩],
            DeltaOperation.encode_batch [⟨2, 5, 1⟩]] := by
  constructor
  · decide
  · have hconcat : DeltaOperation.encode_batch [(⟨1, 5, 0⟩ : DeltaOperation)] ++
        DeltaOperation.encode_batch [(⟨2, 5, 1⟩ : DeltaOperation)] =
        DeltaOperation.encode_batch [⟨1, 5, 0⟩, ⟨2, 5, 1⟩] := by decide
    rw [hconcat,
      show [DeltaOperation.encode_batch [(⟨1, 5, 0⟩ : DeltaOperation), ⟨2, 5, 1⟩]] =
        [[(⟨1, 5, 0⟩ : DeltaOperation), ⟨2, 5, 1⟩]].map DeltaOperation.encode_batch
        from rfl,
      show [DeltaOperation.encode_batch [(⟨1, 5, 0⟩ : DeltaOperation)],
          DeltaOperation.encode_batch [(⟨2, 5, 1⟩ : DeltaOperation)]] =
        [[(⟨1, 5, 0⟩ : DeltaOperation)], [⟨2, 5, 1⟩]].map DeltaOperation.encode_batch
        from rfl,
      merge_for_rocksdb_none [[⟨1, 5, 0⟩, ⟨2, 5, 1⟩]] (by decide),
      merge_for_rocksdb_none [[⟨1, 5, 0⟩], [⟨2, 5, 1⟩]] (by decide)]
    decide

/-- C8 (amended): when the base delta log is present and every
timestamp across the base and both batches is distinct (the
monotonic-timestamp discipline the specification demands of callers),
partial-merging the two encoded batches and then full-merging the base
with that single operand yields the same encoded result as full-merging
the base directly with the two operands. Without a base the single-log
shortcut of DeltaLog::merge loses the last-write-wins reduction, as the
counterexample shows. -/
theorem partial_then_full_merge_eq_direct (base : DeltaLog)
    (a b : List DeltaOperation)
    (hwfb : ∀ op ∈ base.ops, op.wf)
    (hwfa : ∀ op ∈ a, op.wf)
    (hwfbb : ∀ op ∈ b, op.wf)
    (hcount : base.ops.length < 2 ^ 32)
    (hts : ((base.ops ++ (a ++ b)).map (fun op => op.timestamp)).Nodup) :
    (DeltaLog.partial_merge_for_rocksdb
        [DeltaOperation.encode_batch a, DeltaOperation.encode_batch b]).bind
        (fun blob => DeltaLog.merge_for_rocksdb (some base.encode) [blob]) =
      DeltaLog.merge_for_rocksdb (some base.encode)
        [DeltaOperation.encode_batch a, DeltaOperation.encode_batch b] := by
  have hpm : DeltaLog.partial_merge_for_rocksdb
      [DeltaOperation.encode_batch a, DeltaOperation.encode_batch b] =
      some (DeltaOperation.encode_batch (a ++ b)) := by
    unfold DeltaLog.partial_merge_for_rocksdb
    rw [if_pos]
    · simp [DeltaOperation.encode_batch, List.flatMap_append]
    · simp [length_encode_batch, Nat.mul_mod_right]
  rw [hpm, Option.some_bind,
    show [DeltaOperation.encode_batch (a ++ b)] =
      [a ++ b].map DeltaOperation.encode_batch from rfl,
    show [DeltaOperation.encode_batch a, DeltaOperation.encode_batch b] =
      [a, b].map DeltaOperation.encode_batch from rfl,
    merge_for_rocksdb_some base [a ++ b] hwfb hcount
      (by
        intro ops hops op hop
        rw [List.mem_singleton] at hops
        subst hops
        rcases List.mem_append.mp hop with h | h
        · exact hwfa op h
        · exact hwfbb op h),
    merge_for_rocksdb_some base [a, b] hwfb hcount
      (by
        intro ops hops op hop
        rcases List.mem_cons.mp hops with h | h
        · exact hwfa op (h ▸ hop)
        · rw [List.mem_singleton] at h
          exact hwfbb op (h ▸ hop))]
  refine congrArg _ (congrArg DeltaLog.encode ?_)
  apply merge_eq_of_flat_perm
  · simp only [List.map_cons, List.map_nil, List.flatMap_cons, List.flatMap_nil,
      List.append_nil, DeltaLog.from_ops]
    apply List.Perm.append_left base.ops
    exact (List.perm_insertionSort tsRel (a ++ b)).trans
      (((List.perm_insertionSort tsRel a).append
        (List.perm_insertionSort tsRel b)).symm)
  · simp only [List.map_cons, List.map_nil, List.flatMap_cons, List.flatMap_nil,
      List.append_nil, DeltaLog.from_ops]
    have hperm : (base.ops ++ (a ++ b).insertionSort tsRel).Perm
        (base.ops ++ (a ++ b)) :=
      List.Perm.append_left base.ops (List.perm_insertionSort tsRel (a ++ b))
    exact ((hperm.map (fun op => op.timestamp)).nodup_iff).mpr hts

/-- C8 witness: the amended theorem applied to the base log
[Add 1 at 0], batch a = [Add 5 at 1] and batch b = [Remove 5 at 2]. -/
theorem partial_then_full_merge_eq_direct_witness :
    (∀ op ∈ (DeltaLog.mk [⟨0, 1, 0⟩]).ops, op.wf) ∧
      (∀ op ∈ [(⟨1, 5, 0⟩ : DeltaOperation)], op.wf) ∧
      (∀ op ∈ [(⟨2, 5, 1⟩ : DeltaOperation)], op.wf) ∧
      (DeltaLog.mk [⟨0, 1, 0⟩]).ops.length < 2 ^ 32 ∧
      (((DeltaLog.mk [⟨0, 1, 0⟩]).ops ++
        ([(⟨1, 5, 0⟩ : DeltaOperation)] ++ [(⟨2, 5, 1⟩ : DeltaOperation)])).map
          (fun op => op.timestamp)).Nodup ∧
      (DeltaLog.partial_merge_for_rocksdb
          [DeltaOperation.encode_batch [⟨1, 5, 0⟩],
            DeltaOperation.encode_batch [⟨2, 5, 1⟩]]).bind
          (fun blob => DeltaLog.merge_for_rocksdb
            (some (DeltaLog.mk [⟨0, 1, 0⟩]).encode) [blob]) =
        DeltaLog.merge_for_rocksdb (some (DeltaLog.mk [⟨0, 1, 0⟩]).encode)
          [DeltaOperation.encode_batch [⟨1, 5, 0⟩],
            DeltaOperation.encode_batch [⟨2, 5, 1⟩]] :=
  ⟨by decide, by decide, by decide, by decide, by decide,
    partial_then_full_merge_eq_direct ⟨[⟨0, 1, 0⟩]⟩ [⟨1, 5, 0⟩] [⟨2, 5, 1⟩]
      (by decide) (by decide) (by decide) (by decide) (by decide)⟩

theorem length_beBytes (w n : Nat) : (beBytes w n).length = w := by
  simp [beBytes, length_leBytes]

theorem beVal_reverse (l : List Nat) : beVal l.reverse = leVal l := by
  induction l with
  | nil => rfl
  | cons b t ih =>
    unfold beVal at *
    rw [List.reverse_cons, List.foldl_append]
    simp only [List.foldl_cons, List.foldl_nil]
    unfold leVal
    rw [ih]
    omega

theorem beVal_beBytes (w n : Nat) : beVal (beBytes w n) = n % 2 ^ (8 * w) := by
  rw [beBytes, beVal_reverse, leVal_leBytes]

theorem readU16be_at (pre : List Nat) (n : Nat) (post : List Nat) (j : Nat)
    (hj : pre.length = j) (hn : n < 2 ^ 16) :
    readU16be (pre ++ (beBytes 2 n ++ post)) j = n := by
  unfold readU16be
  rw [List.drop_left' hj, List.take_left' (length_beBytes 2 n), beVal_beBytes]
  have h16 : (2 : Nat) ^ (8 * 2) = 2 ^ 16 := by norm_num
  rw [h16]
  exact Nat.mod_eq_of_lt hn

theorem readU32be_at (pre : List Nat) (n : Nat) (post : List Nat) (j : Nat)
    (hj : pre.length = j) (hn : n < 2 ^ 32) :
    readU32be (pre ++ (beBytes 4 n ++ post)) j = n := by
  unfold readU32be
  rw [List.drop_left' hj, List.take_left' (length_beBytes 4 n), beVal_beBytes]
  have h32 : (2 : Nat) ^ (8 * 4) = 2 ^ 32 := by norm_num
  rw [h32]
  exact Nat.mod_eq_of_lt hn

theorem readU32be_flatMap (es : List Nat) (hes : ∀ e ∈ es, e < 2 ^ 32) :
    ∀ (i : Nat) (hi : i < es.length) (pre post : List Nat) (j : Nat),
      pre.length = j →
      readU32be (pre ++ (es.flatMap (fun e => beBytes 4 e) ++ post)) (j + 4 * i) =
        es.get ⟨i, hi⟩ := by
  induction es with
  | nil =>
    intro i hi
    exact absurd hi (by simp)
  | cons e t ih =>
    intro i hi pre post j hj
    cases i with
    | zero =>
      rw [List.flatMap_cons, List.append_assoc]
      simpa using readU32be_at pre e _ j hj (hes e (by simp))
    | succ i2 =>
      rw [List.flatMap_cons]
      have hassoc : pre ++ ((beBytes 4 e ++ t.flatMap (fun x => beBytes 4 x)) ++ post) =
          (pre ++ beBytes 4 e) ++ (t.flatMap (fun x => beBytes 4 x) ++ post) := by
        simp [List.append_assoc]
      rw [hassoc]
      have hj2 : (pre ++ beBytes 4 e).length = j + 4 := by
        simp [hj, length_beBytes]
      have harith : j + 4 * (i2 + 1) = (j + 4) + 4 * i2 := by omega
      rw [harith]
      exact ih (fun x hx => hes x (by simp [hx])) i2 (by simpa using hi) _ post
        (j + 4) hj2

theorem flatMap_pairBytes (l : List (Nat × Nat)) :
    l.flatMap (fun ve => beBytes 4 ve.1 ++ beBytes 4 ve.2) =
      (l.flatMap (fun ve => [ve.1, ve.2])).flatMap (fun e => beBytes 4 e) := by
  induction l with
  | nil => rfl
  | cons p t ih => simp [List.flatMap_cons, ih]

theorem pairWords_length (l : List (Nat × Nat)) :
    (l.flatMap (fun ve => [ve.1, ve.2])).length = 2 * l.length := by
  induction l with
  | nil => rfl
  | cons p t ih =>
    rw [List.flatMap_cons, List.length_append, ih]
    simp only [List.length_cons, List.length_nil]
    omega

theorem pairWords_get_fst (l : List (Nat × Nat)) :
    ∀ j (hj : j < l.length),
      (l.flatMap (fun ve => [ve.1, ve.2]))[2 * j]? = some (l.get ⟨j, hj⟩).1 := by
  induction l with
  | nil => intro j hj; exact absurd hj (by simp)
  | cons p t ih =>
    intro j hj
    cases j with
    | zero => rfl
    | succ j2 =>
      rw [List.flatMap_cons,
        List.getElem?_append_right (by simp)]
      have harith : 2 * (j2 + 1) - ([p.1, p.2] : List Nat).length = 2 * j2 := by
        simp
        omega
      rw [harith, ih j2 (by simpa using hj)]
      rfl

theorem pairWords_get_snd (l : List (Nat × Nat)) :
    ∀ j (hj : j < l.length),
      (l.flatMap (fun ve => [ve.1, ve.2]))[2 * j + 1]? = some (l.get ⟨j, hj⟩).2 := by
  induction l with
  | nil => intro j hj; exact absurd hj (by simp)
  | cons p t ih =>
    intro j hj
    cases j with
    | zero => simp [List.flatMap_cons]
    | succ j2 =>
      rw [List.flatMap_cons,
        List.getElem?_append_right (by simp; omega)]
      have harith : 2 * (j2 + 1) + 1 - ([p.1, p.2] : List Nat).length = 2 * j2 + 1 := by
        simp
        omega
      rw [harith, ih j2 (by simpa using hj)]
      rfl

theorem degSum_cons (p : Nat × List Nat) (t : List (Nat × List Nat)) :
    degSum (p :: t) = p.2.length + degSum t := by
  simp [degSum, groupEdges, List.flatMap_cons]

theorem degSum_append (a b : List (Nat × List Nat)) :
    degSum (a ++ b) = degSum a + degSum b := by
  simp [degSum, groupEdges, List.flatMap_append]

theorem length_csrVertices (g : List (Nat × List Nat)) :
    ∀ off, (csrVertices g off).length = g.length := by
  induction g with
  | nil => intro off; rfl
  | cons p t ih => intro off; simp [csrVertices, ih]

theorem degSum_take_succ (g : List (Nat × List Nat)) (j : Nat) (hj : j < g.length) :
    degSum (g.take (j + 1)) = degSum (g.take j) + (g.get ⟨j, hj⟩).2.length := by
  rw [List.take_succ, degSum_append, List.getElem?_eq_getElem hj]
  simp [degSum_cons, degSum, groupEdges]

theorem csrVertices_get (g : List (Nat × List Nat)) :
    ∀ off j (hj : j < g.length),
      (csrVertices g off).get ⟨j, by rw [length_csrVertices]; exact hj⟩ =
        ((g.get ⟨j, hj⟩).1, off + degSum (g.take j)) := by
  induction g with
  | nil => intro off j hj; exact absurd hj (by simp)
  | cons p t ih =>
    intro off j hj
    cases j with
    | zero => simp [csrVertices, degSum, groupEdges]
    | succ j2 =>
      have h2 : j2 < t.length := by simpa using hj
      have hrec := ih (off + p.2.length) j2 h2
      show (csrVertices t (off + p.2.length)).get
          ⟨j2, by rw [length_csrVertices]; exact h2⟩ =
        ((t.get ⟨j2, h2⟩).1, off + degSum (List.take (j2 + 1) (p :: t)))
      rw [hrec, List.take_succ_cons, degSum_cons, Nat.add_assoc]

theorem flatMap_split {α β : Type} (f : α → List β) (l : List α) (j : Nat)
    (hj : j < l.length) :
    l.flatMap f = (l.take j).flatMap f ++
      (f (l.get ⟨j, hj⟩) ++ (l.drop (j + 1)).flatMap f) := by
  conv_lhs => rw [← List.take_append_drop j l]
  rw [List.flatMap_append, List.drop_eq_getElem_cons hj, List.flatMap_cons]
  rfl

theorem map_range'_eq (f : Nat → Nat) (ns : List Nat) :
    ∀ s, (∀ t (ht : t < ns.length), f (s + t) = ns.get ⟨t, ht⟩) →
      (List.range' s ns.length).map f = ns := by
  induction ns with
  | nil => intro s _; rfl
  | cons x t ih =>
    intro s h
    rw [List.length_cons, List.range'_succ, List.map_cons]
    congr 1
    · simpa using h 0 (by simp)
    · exact ih (s + 1) (fun u hu => by
        have := h (u + 1) (by simpa using hu)
        rw [show s + 1 + u = s + (u + 1) from by omega]
        simpa using this)

theorem length_flatMap_be4 (l : List Nat) :
    (l.flatMap (fun e => beBytes 4 e)).length = 4 * l.length := by
  induction l with
  | nil => rfl
  | cons e t ih =>
    rw [List.flatMap_cons, List.length_append, ih, length_beBytes]
    simp only [List.length_cons]
    omega

theorem length_blockRawOf (g : List (Nat × List Nat)) (hV : g.length < 2 ^ 16)
    (hE : degSum g < 2 ^ 16) :
    (blockRawOf g).length = 4 + 8 * g.length + 4 * degSum g := by
  unfold blockRawOf
  rw [flatMap_pairBytes]
  simp only [List.length_append, length_beBytes, length_flatMap_be4,
    pairWords_length, length_csrVertices]
  have h1 : degSum g = (groupEdges g).length := rfl
  omega

theorem blockRawOf_words (g : List (Nat × List Nat)) (hV : g.length < 2 ^ 16)
    (hE : degSum g < 2 ^ 16) :
    blockRawOf g = beBytes 2 g.length ++ (beBytes 2 (degSum g) ++
      (((csrVertices g 0).flatMap (fun ve => [ve.1, ve.2]) ++
        groupEdges g).flatMap (fun e => beBytes 4 e))) := by
  unfold blockRawOf
  rw [Nat.mod_eq_of_lt hV,
    show (groupEdges g).length % 2 ^ 16 = degSum g from Nat.mod_eq_of_lt hE,
    flatMap_pairBytes]
  simp [List.flatMap_append, List.append_assoc]

theorem degSum_take_le (g : List (Nat × List Nat)) (j : Nat) :
    degSum (g.take j) ≤ degSum g := by
  conv_rhs => rw [← List.take_append_drop j g]
  rw [degSum_append]
  omega

theorem csrVertices_mem (g : List (Nat × List Nat)) :
    ∀ off ve, ve ∈ csrVertices g off →
      (∃ p ∈ g, ve.1 = p.1) ∧ ve.2 ≤ off + degSum g := by
  induction g with
  | nil => intro off ve h; exact absurd h (by simp [csrVertices])
  | cons p t ih =>
    intro off ve h
    rw [csrVertices, List.mem_cons] at h
    rcases h with h | h
    · refine ⟨⟨p, by simp, by rw [h]⟩, ?_⟩
      rw [h]
      omega
    · obtain ⟨⟨q, hq, hq1⟩, hle⟩ := ih (off + p.2.length) ve h
      refine ⟨⟨q, by simp [hq], hq1⟩, ?_⟩
      rw [degSum_cons]
      omega

theorem take_eq_self_of_le {α : Type} (l : List α) (n : Nat) (h : l.length ≤ n) :
    l.take n = l :=
  List.take_of_length_le h

/-- Under the per-block fit bounds, Block::new on the CSR shape of a
group succeeds with unwrapped counts and produces exactly the padded
group bytes. -/
theorem block_new_of_fit (g : List (Nat × List Nat)) (bs : Nat)
    (hV : g.length < 2 ^ 16) (hE : degSum g < 2 ^ 16)
    (hfit : 4 + 8 * g.length + 4 * degSum g ≤ bs) :
    Block.new (csrVertices g 0) (groupEdges g) bs =
      some ⟨g.length, degSum g, blockBytesOf g bs⟩ := by
  unfold Block.new
  rw [length_csrVertices]
  have hVm : g.length % 2 ^ 16 = g.length := Nat.mod_eq_of_lt hV
  have hEm : (groupEdges g).length % 2 ^ 16 = degSum g := Nat.mod_eq_of_lt hE
  rw [hVm, hEm]
  rw [if_neg (by omega)]
  have hlenraw : (blockRawOf g).length = 4 + 8 * g.length + 4 * degSum g :=
    length_blockRawOf g hV hE
  have hraw : beBytes 2 g.length ++ beBytes 2 (degSum g) ++
      (csrVertices g 0).flatMap (fun ve => beBytes 4 ve.1 ++ beBytes 4 ve.2) ++
      (groupEdges g).flatMap (fun e => beBytes 4 e) = blockRawOf g := by
    unfold blockRawOf
    rw [hVm, hEm]
  rw [hraw]
  have hle : (blockRawOf g).length ≤ bs := by omega
  simp [blockBytesOf, hle]

/-- Decoding the padded group bytes and reading the neighbor slice of
the vertex at in-block index j returns exactly that vertex's fed
neighbor list. -/
theorem block_decode_read (g : List (Nat × List Nat)) (bs : Nat)
    (hV : g.length < 2 ^ 16) (hE : degSum g < 2 ^ 16)
    (hfit : 4 + 8 * g.length + 4 * degSum g ≤ bs)
    (hvid : ∀ p ∈ g, p.1 < 2 ^ 32)
    (hns : ∀ p ∈ g, ∀ n ∈ p.2, n < 2 ^ 32)
    (j : Nat) (hj : j < g.length) :
    (Block.decode (blockBytesOf g bs)).bind
      (fun blk => blk.get_neighbor_clone j) = some (g.get ⟨j, hj⟩).2 := by
  have hWlt : ∀ e ∈ (csrVertices g 0).flatMap (fun ve => [ve.1, ve.2]) ++
      groupEdges g, e < 2 ^ 32 := by
    intro e he
    rcases List.mem_append.mp he with h | h
    · rcases List.mem_flatMap.mp h with ⟨ve, hve, hin⟩
      obtain ⟨⟨p, hp, hp1⟩, hle⟩ := csrVertices_mem g 0 ve hve
      rcases List.mem_cons.mp hin with h1 | h1
      · rw [h1, hp1]
        exact hvid p hp
      · have : e = ve.2 := by simpa using h1
        rw [this]
        calc ve.2 ≤ 0 + degSum g := hle
          _ < 2 ^ 32 := by omega
    · rcases List.mem_flatMap.mp h with ⟨p, hp, hin⟩
      exact hns p hp e hin
  have hWlen : ((csrVertices g 0).flatMap (fun ve => [ve.1, ve.2]) ++
      groupEdges g).length = 2 * g.length + degSum g := by
    rw [List.length_append, pairWords_length, length_csrVertices]
    rfl
  have hdata : blockBytesOf g bs =
      (beBytes 2 g.length ++ beBytes 2 (degSum g)) ++
      (((csrVertices g 0).flatMap (fun ve => [ve.1, ve.2]) ++
        groupEdges g).flatMap (fun e => beBytes 4 e) ++
        List.replicate (bs - (blockRawOf g).length) 0) := by
    unfold blockBytesOf
    rw [blockRawOf_words g hV hE]
    simp [List.append_assoc]
  have hpre4 : (beBytes 2 g.length ++ beBytes 2 (degSum g)).length = 4 := by
    simp [length_beBytes]
  have hreadW : ∀ k (hk : k < 2 * g.length + degSum g),
      readU32be (blockBytesOf g bs) (4 + 4 * k) =
        ((csrVertices g 0).flatMap (fun ve => [ve.1, ve.2]) ++
          groupEdges g).get ⟨k, by rw [hWlen]; exact hk⟩ := by
    intro k hk
    rw [hdata]
    exact readU32be_flatMap _ hWlt k (by rw [hWlen]; exact hk) _ _ 4 hpre4
  have hlenraw : (blockRawOf g).length = 4 + 8 * g.length + 4 * degSum g :=
    length_blockRawOf g hV hE
  have hlendata : (blockBytesOf g bs).length = bs := by
    unfold blockBytesOf
    rw [List.length_append, List.length_replicate]
    omega
  have hdec : Block.decode (blockBytesOf g bs) =
      some ⟨g.length, degSum g, blockBytesOf g bs⟩ := by
    unfold Block.decode
    rw [if_neg (by omega)]
    have h0 : readU16be (blockBytesOf g bs) 0 = g.length := by
      have hshape : blockBytesOf g bs = [] ++ (beBytes 2 g.length ++
          (beBytes 2 (degSum g) ++
            (((csrVertices g 0).flatMap (fun ve => [ve.1, ve.2]) ++
              groupEdges g).flatMap (fun e => beBytes 4 e) ++
              List.replicate (bs - (blockRawOf g).length) 0))) := by
        rw [hdata]
        simp [List.append_assoc]
      rw [hshape]
      exact readU16be_at [] g.length _ 0 rfl hV
    have h2 : readU16be (blockBytesOf g bs) 2 = degSum g := by
      have hshape : blockBytesOf g bs = beBytes 2 g.length ++
          (beBytes 2 (degSum g) ++
            (((csrVertices g 0).flatMap (fun ve => [ve.1, ve.2]) ++
              groupEdges g).flatMap (fun e => beBytes 4 e) ++
              List.replicate (bs - (blockRawOf g).length) 0)) := by
        rw [hdata]
        simp [List.append_assoc]
      rw [hshape]
      exact readU16be_at _ (degSum g) _ 2 (length_beBytes 2 g.length) hE
    rw [h0, h2]
  rw [hdec, Option.some_bind]
  have hpwlen : ((csrVertices g 0).flatMap (fun ve => [ve.1, ve.2])).length =
      2 * g.length := by
    rw [pairWords_length, length_csrVertices]
  have hoffread : ∀ i (hi : i < g.length),
      readU32be (blockBytesOf g bs) (4 + i * 8 + 4) = degSum (g.take i) := by
    intro i hi
    rw [show 4 + i * 8 + 4 = 4 + 4 * (2 * i + 1) from by omega,
      hreadW (2 * i + 1) (by omega), List.get_eq_getElem]
    have hlt : 2 * i + 1 <
        ((csrVertices g 0).flatMap (fun ve => [ve.1, ve.2])).length := by
      rw [hpwlen]
      omega
    rw [List.getElem_append_left hlt]
    have h2 := pairWords_get_snd (csrVertices g 0) i
      (by rw [length_csrVertices]; exact hi)
    rw [List.getElem?_eq_getElem hlt] at h2
    have h3 := Option.some.inj h2
    rw [List.get_eq_getElem] at h3
    have h4 := csrVertices_get g 0 i hi
    rw [List.get_eq_getElem] at h4
    rw [h3, h4]
    simp
  have hdj := degSum_take_succ g j hj
  have hoffle : degSum (g.take j) + (g.get ⟨j, hj⟩).2.length ≤ degSum g := by
    have h2 := degSum_take_le g (j + 1)
    omega
  have hedge : ∀ t (ht : t < (g.get ⟨j, hj⟩).2.length),
      readU32be (blockBytesOf g bs)
        (4 + g.length * 8 + (degSum (g.take j) + t) * 4) =
        (g.get ⟨j, hj⟩).2.get ⟨t, ht⟩ := by
    intro t ht
    have hkval : 2 * g.length + (degSum (g.take j) + t) <
        2 * g.length + degSum g := by omega
    rw [show 4 + g.length * 8 + (degSum (g.take j) + t) * 4 =
        4 + 4 * (2 * g.length + (degSum (g.take j) + t)) from by omega,
      hreadW _ hkval]
    have hlen1 : (groupEdges (g.take j)).length = degSum (g.take j) := rfl
    have hsplit : groupEdges g = groupEdges (g.take j) ++
        ((g.get ⟨j, hj⟩).2 ++ (g.drop (j + 1)).flatMap Prod.snd) := by
      unfold groupEdges
      exact flatMap_split Prod.snd g j hj
    have hopt : (((csrVertices g 0).flatMap (fun ve => [ve.1, ve.2])) ++
        groupEdges g)[2 * g.length + (degSum (g.take j) + t)]? =
        some ((g.get ⟨j, hj⟩).2.get ⟨t, ht⟩) := by
      rw [List.getElem?_append_right (by rw [hpwlen]; omega), hpwlen,
        show 2 * g.length + (degSum (g.take j) + t) - 2 * g.length =
          degSum (g.take j) + t from by omega,
        hsplit,
        List.getElem?_append_right (by rw [hlen1]; omega), hlen1,
        show degSum (g.take j) + t - degSum (g.take j) = t from by omega,
        List.getElem?_append_left ht,
        List.getElem?_eq_getElem ht]
      rfl
    have hWk : 2 * g.length + (degSum (g.take j) + t) <
        (((csrVertices g 0).flatMap (fun ve => [ve.1, ve.2])) ++
          groupEdges g).length := by
      rw [hWlen]
      exact hkval
    exact Option.some.inj ((List.getElem?_eq_getElem hWk).symm.trans hopt)
  unfold Block.get_neighbor_clone Block.neighbor_range Block.edge_list_offset
  rw [if_pos (show j < (Block.mk g.length (degSum g)
    (blockBytesOf g bs)).vertex_count from hj)]
  refine congrArg some ?_
  dsimp only
  have hstart : readU32be (blockBytesOf g bs) (4 + j * 8 + 4) =
      degSum (g.take j) := hoffread j hj
  by_cases hlast : j + 1 < g.length
  · have hstop : readU32be (blockBytesOf g bs) (4 + j * 8 + 8 + 4) =
        degSum (g.take (j + 1)) := by
      have := hoffread (j + 1) hlast
      rw [show 4 + (j + 1) * 8 + 4 = 4 + j * 8 + 8 + 4 from by omega] at this
      exact this
    rw [if_pos hlast]
    rw [hstart, hstop]
    have hd : degSum (g.take (j + 1)) - degSum (g.take j) =
        (g.get ⟨j, hj⟩).2.length := by omega
    rw [hd]
    exact map_range'_eq _ _ (degSum (g.take j)) (fun t ht => hedge t ht)
  · have hjlast : j + 1 = g.length := by omega
    have htake : g.take (j + 1) = g := take_eq_self_of_le g (j + 1) (by omega)
    rw [if_neg hlast]
    rw [hstart]
    have hd : degSum g - degSum (g.take j) = (g.get ⟨j, hj⟩).2.length := by
      rw [htake] at hdj
      omega
    rw [hd]
    exact map_range'_eq _ _ (degSum (g.take j)) (fun t ht => hedge t ht)

theorem csrVertices_append_single (g : List (Nat × List Nat)) (p : Nat × List Nat) :
    ∀ off, csrVertices (g ++ [p]) off =
      csrVertices g off ++ [(p.1, off + degSum g)] := by
  induction g with
  | nil =>
    intro off
    show (p.1, off) :: csrVertices [] (off + p.2.length) =
      [(p.1, off + degSum [])]
    simp [csrVertices, degSum, groupEdges]
  | cons q t ih =>
    intro off
    show (q.1, off) :: csrVertices (t ++ [p]) (off + q.2.length) =
      ((q.1, off) :: csrVertices t (off + q.2.length)) ++
        [(p.1, off + degSum (q :: t))]
    rw [ih (off + q.2.length), degSum_cons, List.cons_append, Nat.add_assoc]

theorem groupEdges_append (a b : List (Nat × List Nat)) :
    groupEdges (a ++ b) = groupEdges a ++ groupEdges b := by
  simp [groupEdges, List.flatMap_append]

theorem groupEdges_single (p : Nat × List Nat) : groupEdges [p] = p.2 := by
  simp [groupEdges]

theorem degSum_single (p : Nat × List Nat) : degSum [p] = p.2.length := by
  rw [degSum, groupEdges_single]

theorem csrVertices_map_fst (g : List (Nat × List Nat)) :
    ∀ off, (csrVertices g off).map Prod.fst = g.map Prod.fst := by
  induction g with
  | nil => intro off; rfl
  | cons p t ih => intro off; simp [csrVertices, ih]

theorem hashInsert_foldl_nodup :
    ∀ (l acc : List (Nat × Nat)),
      (acc.map Prod.fst ++ l.map Prod.fst).Nodup →
      l.foldl (fun m p => hashInsert m p.1 p.2) acc = acc ++ l := by
  intro l
  induction l with
  | nil => intro acc _; simp
  | cons p t ih =>
    intro acc h
    rw [List.map_cons] at h
    have hnotin : p.1 ∉ acc.map Prod.fst := by
      intro hmem
      exact (List.nodup_append.mp h).2.2 hmem (List.mem_cons_self p.1 _)
    have hany : acc.any (fun q => q.1 == p.1) = false := by
      rw [List.any_eq_false]
      intro q hq
      simp only [beq_iff_eq]
      intro heq
      exact hnotin (List.mem_map.mpr ⟨q, hq, heq⟩)
    rw [List.foldl_cons]
    have hins : hashInsert acc p.1 p.2 = acc ++ [(p.1, p.2)] := by
      simp [hashInsert, hany]
    rw [hins, ih (acc ++ [(p.1, p.2)]) (by
      simpa [List.map_append, List.append_assoc] using h)]
    simp

theorem vertexIndexMapOf_of_nodup (vertices : List (Nat × Nat))
    (h : (vertices.map Prod.fst).Nodup) :
    vertexIndexMapOf vertices =
      vertices.enum.map (fun p => (p.2.1, p.1 % 2 ^ 16)) := by
  have hcomp : (vertices.enum.map
      (fun p : Nat × (Nat × Nat) => (p.2.1, p.1 % 2 ^ 16))).map Prod.fst =
      vertices.map Prod.fst := by
    rw [List.map_map]
    have h1 : (Prod.fst ∘ fun p : Nat × (Nat × Nat) => (p.2.1, p.1 % 2 ^ 16)) =
        (Prod.fst ∘ Prod.snd : Nat × (Nat × Nat) → Nat) := rfl
    rw [h1, ← List.map_map, List.enum_map_snd]
  unfold vertexIndexMapOf
  rw [hashInsert_foldl_nodup _ [] (by
    rw [List.map_nil, List.nil_append, hcomp]; exact h)]
  simp

theorem metasOf_append_single (groups : List (List (Nat × List Nat)))
    (cur : List (Nat × List Nat)) :
    metasOf (groups ++ [cur]) = metasOf groups ++
      cur.enum.map (fun jp => ⟨jp.2.1, groups.length, jp.1⟩) := by
  unfold metasOf
  rw [List.enum_append, List.flatMap_append]
  congr 1
  show (List.enumFrom groups.length [cur]).flatMap _ = _
  simp [List.enumFrom]

theorem metaMap_of_csr (cur : List (Nat × List Nat)) (page : Nat)
    (hV : cur.length < 2 ^ 16) :
    ((csrVertices cur 0).enum.map
        (fun p : Nat × (Nat × Nat) => (p.2.1, p.1 % 2 ^ 16))).map
        (fun p => (⟨p.1, page, p.2⟩ : VertexMeta)) =
      cur.enum.map (fun jp => (⟨jp.2.1, page, jp.1⟩ : VertexMeta)) := by
  rw [List.map_map]
  apply List.ext_getElem
  · simp [List.enum_length, length_csrVertices]
  · intro k h1 h2
    have hk : k < cur.length := by
      simpa [List.enum_length] using h2
    have hkcsr : k < (csrVertices cur 0).enum.length := by
      simpa [List.enum_length, length_csrVertices] using hk
    rw [List.getElem_map, List.getElem_map, List.getElem_enum, List.getElem_enum]
    show (⟨((csrVertices cur 0).get ⟨k, by
        rw [length_csrVertices]; exact hk⟩).1, page, k % 2 ^ 16⟩ : VertexMeta) =
      ⟨(cur.get ⟨k, hk⟩).1, page, k⟩
    have hmod : k % 2 ^ 16 = k := Nat.mod_eq_of_lt (Nat.lt_trans hk hV)
    rw [hmod]
    have hfst : ((csrVertices cur 0).get
        ⟨k, by rw [length_csrVertices]; exact hk⟩).1 = (cur.get ⟨k, hk⟩).1 := by
      rw [csrVertices_get cur 0 k hk]
    exact congrArg (fun x => (⟨x, page, k⟩ : VertexMeta)) hfst

theorem csrVertices_ne_nil (cur : List (Nat × List Nat)) (hne : cur ≠ []) :
    (csrVertices cur 0).isEmpty = false := by
  rw [List.isEmpty_eq_false]
  intro hcontra
  have := length_csrVertices cur 0
  rw [hcontra] at this
  exact hne (List.eq_nil_of_length_eq_zero this.symm)

/-- BlockBuilder::build on the builder state of a group that fits. -/
theorem blockBuilder_build_state (cur : List (Nat × List Nat)) (bs : Nat)
    (hne : cur ≠ [])
    (hV : cur.length < 2 ^ 16) (hE : degSum cur < 2 ^ 16)
    (hfit : 4 + 8 * cur.length + 4 * degSum cur ≤ bs)
    (hnodup : (cur.map Prod.fst).Nodup) :
    BlockBuilder.build ⟨csrVertices cur 0, groupEdges cur, bs, degSum cur⟩ =
      some (⟨cur.length, degSum cur, blockBytesOf cur bs⟩,
        (csrVertices cur 0).enum.map
          (fun p : Nat × (Nat × Nat) => (p.2.1, p.1 % 2 ^ 16))) := by
  unfold BlockBuilder.build
  rw [show (⟨csrVertices cur 0, groupEdges cur, bs, degSum cur⟩ :
      BlockBuilder).vertices = csrVertices cur 0 from rfl,
    csrVertices_ne_nil cur hne]
  rw [show (Block.new (⟨csrVertices cur 0, groupEdges cur, bs,
      degSum cur⟩ : BlockBuilder).vertices (⟨csrVertices cur 0, groupEdges cur,
      bs, degSum cur⟩ : BlockBuilder).edges (⟨csrVertices cur 0,
      groupEdges cur, bs, degSum cur⟩ : BlockBuilder).block_size) =
      some ⟨cur.length, degSum cur, blockBytesOf cur bs⟩ from
    block_new_of_fit cur bs hV hE hfit]
  rw [show vertexIndexMapOf (⟨csrVertices cur 0, groupEdges cur, bs,
      degSum cur⟩ : BlockBuilder).vertices =
      (csrVertices cur 0).enum.map
        (fun p : Nat × (Nat × Nat) => (p.2.1, p.1 % 2 ^ 16)) from
    vertexIndexMapOf_of_nodup _ (by rw [csrVertices_map_fst]; exact hnodup)]
  simp

/-- BucketBuilder::finish_block moves the in-progress group into the
finished groups. -/
theorem finish_block_state (bs : Nat) (hashes : List Nat)
    (groups : List (List (Nat × List Nat))) (cur : List (Nat × List Nat))
    (hne : cur ≠ [])
    (hV : cur.length < 2 ^ 16) (hE : degSum cur < 2 ^ 16)
    (hfit : 4 + 8 * cur.length + 4 * degSum cur ≤ bs)
    (hnodup : (cur.map Prod.fst).Nodup)
    (hpage : groups.length + 1 < 2 ^ 32) :
    (bucketStateOf bs hashes groups cur).finish_block =
      some (bucketStateOf bs hashes (groups ++ [cur]) []) := by
  unfold BucketBuilder.finish_block
  rw [show (bucketStateOf bs hashes groups cur).builder =
      ⟨csrVertices cur 0, groupEdges cur, bs, degSum cur⟩ from rfl,
    blockBuilder_build_state cur bs hne hV hE hfit hnodup]
  show some ⟨⟨[], [], bs, 0⟩, bs, hashes,
      (groups.map (fun g => blockBytesOf g bs)).flatten ++ blockBytesOf cur bs,
      metasOf groups ++ ((csrVertices cur 0).enum.map
        (fun p : Nat × (Nat × Nat) => (p.2.1, p.1 % 2 ^ 16))).map
        (fun p => ⟨p.1, groups.length, p.2⟩),
      (groups.length + 1) % 2 ^ 32⟩ =
    some (bucketStateOf bs hashes (groups ++ [cur]) [])
  rw [metaMap_of_csr cur groups.length hV, Nat.mod_eq_of_lt hpage]
  unfold bucketStateOf
  rw [metasOf_append_single, List.map_append, List.flatten_append]
  simp
  exact ⟨rfl, rfl, rfl⟩

theorem nodup_middle {α : Type} {a b c : List α} (h : (a ++ b ++ c).Nodup) :
    b.Nodup := by
  rw [List.append_assoc] at h
  exact (List.nodup_append.mp ((List.nodup_append.mp h).2.1)).1

theorem groups_length_le_flatten {α : Type} (L : List (List α))
    (h : ∀ l ∈ L, l ≠ []) : L.length ≤ L.flatten.length := by
  induction L with
  | nil => simp
  | cons x t ih =>
    rw [List.flatten_cons, List.length_append, List.length_cons]
    have hx : 1 ≤ x.length := by
      have hxne := h x (List.mem_cons_self x t)
      cases x with
      | nil => exact absurd rfl hxne
      | cons y ys => simp
    have := ih (fun l hl => h l (List.mem_cons_of_mem x hl))
    omega

/-- BlockBuilder::add_vertex when the entry is admitted (it fits, or the
builder is empty): the builder advances to the CSR state of the extended
group. -/
theorem add_vertex_into_group (cur : List (Nat × List Nat)) (bs : Nat)
    (p : Nat × List Nat)
    (hwrap : degSum cur + p.2.length < 2 ^ 32)
    (hcond : ¬(4 + (csrVertices cur 0).length * 8 + (groupEdges cur).length * 4 +
        8 + p.2.length * 4 > bs ∧ (csrVertices cur 0).isEmpty = false)) :
    BlockBuilder.add_vertex ⟨csrVertices cur 0, groupEdges cur, bs, degSum cur⟩
        p.1 p.2 =
      (⟨csrVertices (cur ++ [p]) 0, groupEdges (cur ++ [p]), bs,
        degSum (cur ++ [p])⟩, true) := by
  unfold BlockBuilder.add_vertex BlockBuilder.estimated_size BlockBuilder.is_empty
  dsimp only
  rw [if_neg hcond, csrVertices_append_single cur p 0, Nat.zero_add,
    groupEdges_append, groupEdges_single, degSum_append, degSum_single,
    Nat.mod_eq_of_lt hwrap]

/-- BlockBuilder::add_vertex when the entry overflows a non-empty
builder: the builder is unchanged and false is returned. -/
theorem add_vertex_overflow (cur : List (Nat × List Nat)) (bs : Nat)
    (p : Nat × List Nat)
    (hcond : 4 + (csrVertices cur 0).length * 8 + (groupEdges cur).length * 4 +
        8 + p.2.length * 4 > bs ∧ (csrVertices cur 0).isEmpty = false) :
    BlockBuilder.add_vertex ⟨csrVertices cur 0, groupEdges cur, bs, degSum cur⟩
        p.1 p.2 =
      (⟨csrVertices cur 0, groupEdges cur, bs, degSum cur⟩, false) := by
  unfold BlockBuilder.add_vertex BlockBuilder.estimated_size BlockBuilder.is_empty
  dsimp only
  rw [if_pos hcond]

/-- BucketBuilder::add when the vertex goes into the current block. -/
theorem bucketAdd_fit (bs : Nat) (hashes : List Nat)
    (groups : List (List (Nat × List Nat))) (cur : List (Nat × List Nat))
    (p : Nat × List Nat)
    (hwrap : degSum cur + p.2.length < 2 ^ 32)
    (hcond : ¬(4 + (csrVertices cur 0).length * 8 + (groupEdges cur).length * 4 +
        8 + p.2.length * 4 > bs ∧ (csrVertices cur 0).isEmpty = false)) :
    (bucketStateOf bs hashes groups cur).add p.1 p.2 =
      some (bucketStateOf bs
        (hashes ++ p.2.map (fun n =>
          farmhash64 (((p.1 % 2 ^ 32) <<< 32) ||| (n % 2 ^ 32))))
        groups (cur ++ [p])) := by
  simp only [BucketBuilder.add, bucketStateOf]
  rw [add_vertex_into_group cur bs p hwrap hcond]
  rfl

/-- BucketBuilder::add when the vertex overflows the current block: the
block is finished and the vertex goes into a fresh block. -/
theorem bucketAdd_overflow (bs : Nat) (hashes : List Nat)
    (groups : List (List (Nat × List Nat))) (cur : List (Nat × List Nat))
    (p : Nat × List Nat)
    (hcond : 4 + (csrVertices cur 0).length * 8 + (groupEdges cur).length * 4 +
        8 + p.2.length * 4 > bs ∧ (csrVertices cur 0).isEmpty = false)
    (hne : cur ≠ []) (hV : cur.length < 2 ^ 16) (hE : degSum cur < 2 ^ 16)
    (hfit : 4 + 8 * cur.length + 4 * degSum cur ≤ bs)
    (hnodup : (cur.map Prod.fst).Nodup)
    (hpage : groups.length + 1 < 2 ^ 32)
    (hwrap : p.2.length < 2 ^ 32) :
    (bucketStateOf bs hashes groups cur).add p.1 p.2 =
      some (bucketStateOf bs (hashes ++ p.2.map (fun n =>
          farmhash64 (((p.1 % 2 ^ 32) <<< 32) ||| (n % 2 ^ 32))))
        (groups ++ [cur]) [p]) := by
  have hfin := finish_block_state bs (hashes ++ p.2.map (fun n =>
      farmhash64 (((p.1 % 2 ^ 32) <<< 32) ||| (n % 2 ^ 32))))
    groups cur hne hV hE hfit hnodup hpage
  have hretry := add_vertex_into_group [] bs p
    (by
      have hds : degSum ([] : List (Nat × List Nat)) = 0 := rfl
      omega)
    (by
      intro hcontra
      simpa [csrVertices] using hcontra.2)
  simp only [BucketBuilder.add, bucketStateOf]
  rw [add_vertex_overflow cur bs p hcond]
  simp only [bucketStateOf] at hfin
  rw [hfin]
  simp only [bucketStateOf] at hretry ⊢
  rw [hretry]
  rfl

/-- Feeding any sequence of entries that each fit an empty block into a
bucket-builder state with sound invariants succeeds and yields a state
whose groups partition the fed entries in order. -/
theorem addAll_spec (bs : Nat) (hbs : bs ≤ 262144) :
    ∀ (feed : List (Nat × List Nat)) (groups : List (List (Nat × List Nat)))
      (cur : List (Nat × List Nat)) (hashes : List Nat),
      (∀ gp ∈ groups, gp ≠ [] ∧ 4 + 8 * gp.length + 4 * degSum gp ≤ bs) →
      (cur = [] ∨ 4 + 8 * cur.length + 4 * degSum cur ≤ bs) →
      ((groups.flatten ++ cur ++ feed).map Prod.fst).Nodup →
      (∀ p ∈ feed, 4 + 8 + 4 * p.2.length ≤ bs) →
      groups.flatten.length + cur.length + feed.length < 2 ^ 32 →
      ∃ groups2 cur2 hashes2,
        (bucketStateOf bs hashes groups cur).addAll feed =
          some (bucketStateOf bs hashes2 groups2 cur2) ∧
        groups2.flatten ++ cur2 = groups.flatten ++ cur ++ feed ∧
        (∀ gp ∈ groups2, gp ≠ [] ∧ 4 + 8 * gp.length + 4 * degSum gp ≤ bs) ∧
        (cur2 = [] ∨ 4 + 8 * cur2.length + 4 * degSum cur2 ≤ bs) := by
  intro feed
  induction feed with
  | nil =>
    intro groups cur hashes hg hc _ _ _
    exact ⟨groups, cur, hashes, rfl, by simp, hg, hc⟩
  | cons p t ih =>
    intro groups cur hashes hg hc hN hf hcnt
    have hp : 4 + 8 + 4 * p.2.length ≤ bs := hf p (List.mem_cons_self p t)
    have hft : ∀ q ∈ t, 4 + 8 + 4 * q.2.length ≤ bs :=
      fun q hq => hf q (List.mem_cons_of_mem p hq)
    have hlen_csr : (csrVertices cur 0).length = cur.length :=
      length_csrVertices cur 0
    have hlen_ge : (groupEdges cur).length = degSum cur := rfl
    have hcnt2 : groups.flatten.length + cur.length + (t.length + 1) < 2 ^ 32 := by
      simpa using hcnt
    by_cases hcase : (4 + (csrVertices cur 0).length * 8 +
        (groupEdges cur).length * 4 + 8 + p.2.length * 4 > bs ∧
        (csrVertices cur 0).isEmpty = false)
    · -- overflow: finish the current block, retry into a fresh one
      have hcurne : cur ≠ [] := by
        intro hc0
        rw [hc0] at hcase
        exact absurd hcase.2 (by simp [csrVertices])
      have hfitcur : 4 + 8 * cur.length + 4 * degSum cur ≤ bs := by
        rcases hc with h | h
        · exact absurd h hcurne
        · exact h
      have hVcur : cur.length < 2 ^ 16 := by
        have : (2 : Nat) ^ 16 = 65536 := by norm_num
        omega
      have hEcur : degSum cur < 2 ^ 16 := by
        have : (2 : Nat) ^ 16 = 65536 := by norm_num
        omega
      have hnodupcur : (cur.map Prod.fst).Nodup := by
        have h1 : (groups.flatten.map Prod.fst ++ cur.map Prod.fst ++
            ((p :: t).map Prod.fst)).Nodup := by
          simpa [List.map_append] using hN
        exact nodup_middle h1
      have hcur1 : 1 ≤ cur.length := by
        cases cur with
        | nil => exact absurd rfl hcurne
        | cons a b => simp
      have hpage : groups.length + 1 < 2 ^ 32 := by
        have h1 := groups_length_le_flatten groups (fun l hl => (hg l hl).1)
        omega
      have hplen : p.2.length < 2 ^ 32 := by
        have : (2 : Nat) ^ 32 = 4294967296 := by norm_num
        omega
      have hadd := bucketAdd_overflow bs hashes groups cur p hcase hcurne
        hVcur hEcur hfitcur hnodupcur hpage hplen
      have hstep : (bucketStateOf bs hashes groups cur).addAll (p :: t) =
          (bucketStateOf bs (hashes ++ p.2.map (fun n =>
            farmhash64 (((p.1 % 2 ^ 32) <<< 32) ||| (n % 2 ^ 32))))
            (groups ++ [cur]) [p]).addAll t := by
        simp only [BucketBuilder.addAll, hadd]
      have hrearr : (groups ++ [cur]).flatten ++ [p] ++ t =
          groups.flatten ++ cur ++ (p :: t) := by
        simp [List.flatten_append, List.append_assoc]
      obtain ⟨g2, c2, h2, heq, hflat, hg2, hc2⟩ := ih (groups ++ [cur]) [p] _
        (by
          intro gp hgp
          rcases List.mem_append.mp hgp with h | h
          · exact hg gp h
          · rw [List.mem_singleton.mp h]
            exact ⟨hcurne, hfitcur⟩)
        (Or.inr (by
          rw [degSum_single]
          simp only [List.length_cons, List.length_nil]
          omega))
        (by rw [hrearr]; exact hN)
        hft
        (by
          have hfl : (groups ++ [cur]).flatten = groups.flatten ++ cur := by
            rw [List.flatten_append]
            simp
          rw [hfl, List.length_append]
          simp only [List.length_cons, List.length_nil]
          omega)
      refine ⟨g2, c2, h2, by rw [hstep]; exact heq, ?_, hg2, hc2⟩
      rw [hflat, hrearr]
    · -- the vertex fits the current block (or the builder is empty)
      have hkey : (cur = [] ∧ 4 + 8 + 4 * p.2.length ≤ bs) ∨
          4 + 8 * (cur.length + 1) + 4 * (degSum cur + p.2.length) ≤ bs := by
        by_cases hA : 4 + (csrVertices cur 0).length * 8 +
            (groupEdges cur).length * 4 + 8 + p.2.length * 4 > bs
        · left
          have hB : ¬((csrVertices cur 0).isEmpty = false) :=
            fun hB => hcase ⟨hA, hB⟩
          have hcur0 : cur = [] := by
            cases cur with
            | nil => rfl
            | cons a b => exact absurd rfl hB
          exact ⟨hcur0, hp⟩
        · right
          rw [hlen_csr, hlen_ge] at hA
          omega
      have hds0 : degSum ([] : List (Nat × List Nat)) = 0 := rfl
      have hwrap : degSum cur + p.2.length < 2 ^ 32 := by
        have h32 : (2 : Nat) ^ 32 = 4294967296 := by norm_num
        rcases hkey with ⟨hc0, hpfit⟩ | h
        · rw [hc0, hds0]
          omega
        · omega
      have hfitnew : 4 + 8 * (cur ++ [p]).length + 4 * degSum (cur ++ [p]) ≤ bs := by
        rw [List.length_append, degSum_append, degSum_single]
        rcases hkey with ⟨hc0, hpfit⟩ | h
        · rw [hc0, hds0]
          simp only [List.length_nil, List.length_cons]
          omega
        · simp only [List.length_cons, List.length_nil]
          omega
      have hadd := bucketAdd_fit bs hashes groups cur p hwrap hcase
      have hstep : (bucketStateOf bs hashes groups cur).addAll (p :: t) =
          (bucketStateOf bs (hashes ++ p.2.map (fun n =>
            farmhash64 (((p.1 % 2 ^ 32) <<< 32) ||| (n % 2 ^ 32))))
            groups (cur ++ [p])).addAll t := by
        simp only [BucketBuilder.addAll, hadd]
      have hrearr : groups.flatten ++ (cur ++ [p]) ++ t =
          groups.flatten ++ cur ++ (p :: t) := by
        simp [List.append_assoc]
      obtain ⟨g2, c2, h2, heq, hflat, hg2, hc2⟩ := ih groups (cur ++ [p]) _
        hg (Or.inr hfitnew)
        (by rw [hrearr]; exact hN)
        hft
        (by
          simp only [List.length_append, List.length_cons, List.length_nil]
          omega)
      refine ⟨g2, c2, h2, by rw [hstep]; exact heq, ?_, hg2, hc2⟩
      rw [hflat, hrearr]

theorem length_blockBytesOf (g : List (Nat × List Nat)) (bs : Nat)
    (hV : g.length < 2 ^ 16) (hE : degSum g < 2 ^ 16)
    (hfit : 4 + 8 * g.length + 4 * degSum g ≤ bs) :
    (blockBytesOf g bs).length = bs := by
  unfold blockBytesOf
  rw [List.length_append, List.length_replicate, length_blockRawOf g hV hE]
  omega

theorem flatten_length_const {α : Type} (L : List (List α)) (bs : Nat)
    (h : ∀ l ∈ L, l.length = bs) : L.flatten.length = L.length * bs := by
  induction L with
  | nil => simp
  | cons x t ih =>
    rw [List.flatten_cons, List.length_append, h x (List.mem_cons_self x t),
      ih (fun l hl => h l (List.mem_cons_of_mem x hl)), List.length_cons]
    ring

theorem flatten_slice {α : Type} (L : List (List α)) (rest : List α) (bs : Nat)
    (hL : ∀ l ∈ L, l.length = bs) :
    ∀ (i : Nat) (hi : i < L.length),
      ((L.flatten ++ rest).drop (i * bs)).take bs = L.get ⟨i, hi⟩ := by
  induction L with
  | nil => intro i hi; exact absurd hi (by simp)
  | cons x t ih =>
    intro i hi
    cases i with
    | zero =>
      rw [Nat.zero_mul, List.drop_zero, List.flatten_cons, List.append_assoc,
        List.take_left' (hL x (List.mem_cons_self x t))]
      rfl
    | succ i2 =>
      have hx : x.length = bs := hL x (List.mem_cons_self x t)
      rw [List.flatten_cons, List.append_assoc,
        show (i2 + 1) * bs = x.length + i2 * bs from by rw [hx]; ring,
        List.drop_append]
      exact ih (fun l hl => hL l (List.mem_cons_of_mem x hl)) i2
        (by simpa using hi)

/-- Bucket::read_block on the laid-out file of a list of full blocks:
page i decodes the bytes of block i. -/
theorem read_block_state (groups2 : List (List (Nat × List Nat))) (bs : Nat)
    (rest : List Nat) (metas : List VertexMeta)
    (hbs : 0 < bs)
    (hlen : ∀ gp ∈ groups2, (blockBytesOf gp bs).length = bs)
    (i : Nat) (hi : i < groups2.length) :
    Bucket.read_block
      ⟨(groups2.map (fun g => blockBytesOf g bs)).flatten ++ rest, metas,
        ((groups2.map (fun g => blockBytesOf g bs)).flatten).length, bs⟩ i =
      Block.decode (blockBytesOf (groups2.get ⟨i, hi⟩) bs) := by
  have hlenmap : ∀ l ∈ groups2.map (fun g => blockBytesOf g bs), l.length = bs := by
    intro l hl
    rcases List.mem_map.mp hl with ⟨gp, hgp, rfl⟩
    exact hlen gp hgp
  have hflat : ((groups2.map (fun g => blockBytesOf g bs)).flatten).length =
      groups2.length * bs := by
    rw [flatten_length_const _ bs hlenmap, List.length_map]
  unfold Bucket.read_block
  dsimp only
  rw [if_neg (by
    rw [hflat]
    intro hge
    have hlt : i * bs < groups2.length * bs :=
      (Nat.mul_lt_mul_right hbs).mpr hi
    omega)]
  have hmin : min (i * bs + bs) ((groups2.map
      (fun g => blockBytesOf g bs)).flatten).length = i * bs + bs := by
    rw [hflat]
    have : i + 1 ≤ groups2.length := hi
    have h2 : (i + 1) * bs ≤ groups2.length * bs :=
      Nat.mul_le_mul_right bs this
    have h3 : (i + 1) * bs = i * bs + bs := by ring
    omega
  rw [hmin]
  rw [if_neg (by
    rw [List.length_append, hflat]
    have h2 : (i + 1) * bs ≤ groups2.length * bs :=
      Nat.mul_le_mul_right bs hi
    have h3 : (i + 1) * bs = i * bs + bs := by ring
    omega)]
  rw [show i * bs + bs - i * bs = bs from by omega,
    flatten_slice _ rest bs hlenmap i (by simpa using hi)]
  rw [show (groups2.map (fun g => blockBytesOf g bs)).get
      ⟨i, by simpa using hi⟩ = blockBytesOf (groups2.get ⟨i, hi⟩) bs from by
    rw [List.get_eq_getElem, List.get_eq_getElem, List.getElem_map]]

/-- BucketBuilder::build on a state with no in-progress block. -/
theorem build_state_empty (bs : Nat) (hashes : List Nat)
    (groups : List (List (Nat × List Nat))) :
    (bucketStateOf bs hashes groups []).build =
      some ⟨(groups.map (fun g => blockBytesOf g bs)).flatten ++
          VertexMeta.encode (metasOf groups) ++ Bloom.encodeBytes hashes ++
          (beBytes 4 bs ++
            beBytes 4 ((groups.map (fun g => blockBytesOf g bs)).flatten).length ++
            beBytes 4 (Bloom.encodeBytes hashes).length),
        metasOf groups,
        ((groups.map (fun g => blockBytesOf g bs)).flatten).length, bs⟩ := rfl

/-- BucketBuilder::build on a state with a non-empty in-progress block:
the block is finished first. -/
theorem build_state_finish (bs : Nat) (hashes : List Nat)
    (groups : List (List (Nat × List Nat))) (cur : List (Nat × List Nat))
    (hne : cur ≠ [])
    (hV : cur.length < 2 ^ 16) (hE : degSum cur < 2 ^ 16)
    (hfit : 4 + 8 * cur.length + 4 * degSum cur ≤ bs)
    (hnodup : (cur.map Prod.fst).Nodup)
    (hpage : groups.length + 1 < 2 ^ 32) :
    (bucketStateOf bs hashes groups cur).build =
      some ⟨((groups ++ [cur]).map (fun g => blockBytesOf g bs)).flatten ++
          VertexMeta.encode (metasOf (groups ++ [cur])) ++
          Bloom.encodeBytes hashes ++
          (beBytes 4 bs ++
            beBytes 4 (((groups ++ [cur]).map
              (fun g => blockBytesOf g bs)).flatten).length ++
            beBytes 4 (Bloom.encodeBytes hashes).length),
        metasOf (groups ++ [cur]),
        (((groups ++ [cur]).map (fun g => blockBytesOf g bs)).flatten).length,
        bs⟩ := by
  have hfin := finish_block_state bs hashes groups cur hne hV hE hfit hnodup hpage
  unfold BucketBuilder.build
  rw [show (bucketStateOf bs hashes groups cur).builder.is_empty =
      (csrVertices cur 0).isEmpty from rfl,
    csrVertices_ne_nil cur hne]
  rw [show (if false = true then some (bucketStateOf bs hashes groups cur)
      else (bucketStateOf bs hashes groups cur).finish_block) =
      (bucketStateOf bs hashes groups cur).finish_block from by simp]
  rw [hfin]
  rfl

/-- Membership in the metas of a list of groups: exactly one meta per
(page, in-block index) slot, holding that slot's vertex id. -/
theorem metasOf_mem_iff (groups : List (List (Nat × List Nat))) (m : VertexMeta) :
    m ∈ metasOf groups ↔
      ∃ (i : Nat) (hi : i < groups.length) (j : Nat)
        (hj : j < (groups.get ⟨i, hi⟩).length),
        m = ⟨((groups.get ⟨i, hi⟩).get ⟨j, hj⟩).1, i, j⟩ := by
  unfold metasOf
  rw [List.mem_flatMap]
  constructor
  · rintro ⟨ig, hig, hm⟩
    obtain ⟨i, hilen, hieq⟩ := List.mem_iff_getElem.mp hig
    have hi : i < groups.length := by simpa [List.enum_length] using hilen
    rw [List.getElem_enum] at hieq
    rw [← hieq] at hm
    obtain ⟨jp, hjp, hmeq⟩ := List.mem_map.mp hm
    obtain ⟨j, hjlen, hjeq⟩ := List.mem_iff_getElem.mp hjp
    have hj : j < (groups.get ⟨i, hi⟩).length := by
      simpa [List.enum_length] using hjlen
    rw [List.getElem_enum] at hjeq
    refine ⟨i, hi, j, hj, ?_⟩
    rw [← hmeq, ← hjeq]
    rfl
  · rintro ⟨i, hi, j, hj, rfl⟩
    refine ⟨(i, groups.get ⟨i, hi⟩), ?_, ?_⟩
    · apply List.mem_iff_getElem.mpr
      refine ⟨i, by simpa [List.enum_length] using hi, ?_⟩
      rw [List.getElem_enum]
      rfl
    · apply List.mem_map.mpr
      refine ⟨(j, (groups.get ⟨i, hi⟩).get ⟨j, hj⟩), ?_, rfl⟩
      apply List.mem_iff_getElem.mpr
      refine ⟨j, by simpa [List.enum_length] using hj, ?_⟩
      rw [List.getElem_enum]
      rfl

/-- Any bucket laid out from a list of well-formed groups answers every
read through a vertex meta with the exact neighbor list of that vertex,
and has a meta for every fed vertex. -/
theorem bucket_groups_read (bs : Nat) (hbs : bs ≤ 262144)
    (groups3 : List (List (Nat × List Nat))) (rest : List Nat)
    (metas_extra : List Nat)
    (hg : ∀ gp ∈ groups3, gp ≠ [] ∧ 4 + 8 * gp.length + 4 * degSum gp ≤ bs)
    (hnodup : ((groups3.flatten).map Prod.fst).Nodup)
    (hvid : ∀ q ∈ groups3.flatten, q.1 < 2 ^ 32)
    (hns : ∀ q ∈ groups3.flatten, ∀ n ∈ q.2, n < 2 ^ 32)
    (p : Nat × List Nat) (hp : p ∈ groups3.flatten) :
    (∃ m ∈ metasOf groups3, m.vertex_id = p.1) ∧
    ∀ m ∈ metasOf groups3, m.vertex_id = p.1 →
      (Bucket.read_block
          ⟨(groups3.map (fun g => blockBytesOf g bs)).flatten ++ rest,
            metasOf groups3,
            ((groups3.map (fun g => blockBytesOf g bs)).flatten).length, bs⟩
          m.page_id).bind
        (fun blk => blk.get_neighbor_clone m.offset_inner) = some p.2 := by
  have h16 : (2 : Nat) ^ 16 = 65536 := by norm_num
  have hVE : ∀ gp ∈ groups3, gp.length < 2 ^ 16 ∧ degSum gp < 2 ^ 16 ∧
      4 + 8 * gp.length + 4 * degSum gp ≤ bs := by
    intro gp hgp
    have h2 := (hg gp hgp).2
    exact ⟨by omega, by omega, h2⟩
  have hbs0 : 0 < bs := by
    obtain ⟨gp, hgp, _⟩ := List.mem_flatten.mp hp
    have := (hg gp hgp).2
    omega
  have hlen : ∀ gp ∈ groups3, (blockBytesOf gp bs).length = bs := by
    intro gp hgp
    obtain ⟨h1, h2, h3⟩ := hVE gp hgp
    exact length_blockBytesOf gp bs h1 h2 h3
  constructor
  · obtain ⟨gp, hgp, hpgp⟩ := List.mem_flatten.mp hp
    obtain ⟨i, hi, hieq⟩ := List.mem_iff_getElem.mp hgp
    subst hieq
    obtain ⟨j, hj, hjeq⟩ := List.mem_iff_getElem.mp hpgp
    have hj2 : j < (groups3.get ⟨i, hi⟩).length := hj
    refine ⟨⟨((groups3.get ⟨i, hi⟩).get ⟨j, hj2⟩).1, i, j⟩,
      (metasOf_mem_iff groups3 _).mpr ⟨i, hi, j, hj2, rfl⟩, ?_⟩
    show ((groups3.get ⟨i, hi⟩).get ⟨j, hj2⟩).1 = p.1
    exact congrArg Prod.fst hjeq
  · intro m hm hmvid
    obtain ⟨i, hi, j, hj, rfl⟩ := (metasOf_mem_iff groups3 m).mp hm
    have hgpmem : groups3.get ⟨i, hi⟩ ∈ groups3 := by
      rw [List.get_eq_getElem]
      exact List.getElem_mem hi
    obtain ⟨hV, hE, hfit⟩ := hVE _ hgpmem
    have hq : (groups3.get ⟨i, hi⟩).get ⟨j, hj⟩ ∈ groups3.flatten :=
      List.mem_flatten.mpr ⟨groups3.get ⟨i, hi⟩, hgpmem,
        by rw [List.get_eq_getElem (groups3.get ⟨i, hi⟩)]; exact List.getElem_mem hj⟩
    have hqp : (groups3.get ⟨i, hi⟩).get ⟨j, hj⟩ = p :=
      List.inj_on_of_nodup_map hnodup hq hp hmvid
    show (Bucket.read_block _ i).bind _ = _
    rw [read_block_state groups3 bs rest (metasOf groups3) hbs0 hlen i hi]
    have hread := block_decode_read (groups3.get ⟨i, hi⟩) bs hV hE hfit
      (fun q hqm => hvid q (List.mem_flatten.mpr ⟨_, hgpmem, hqm⟩))
      (fun q hqm => hns q (List.mem_flatten.mpr ⟨_, hgpmem, hqm⟩))
      j hj
    rw [hread, hqp]

/-- C6: feeding a sequence of (vertex, neighbor-list) pairs with
pairwise-distinct vertex ids to a BucketBuilder whose entries each fit
an empty block succeeds, and for every fed vertex, reading the block at
its meta's page and taking the neighbor slice at its meta's in-block
offset returns exactly the neighbor list that was fed, in feed order.
Amended against the spec: the round-trip is proved for block sizes of
at most 262144 bytes, which keeps every block's u16 vertex and edge
counts below 2^16; the counterexample theorem shows the unbounded claim
fails once a block's edge count reaches 2^16 and wraps. -/
theorem bucket_build_read_roundtrip (bs : Nat) (feed : List (Nat × List Nat))
    (hbs : bs ≤ 262144)
    (hnodup : (feed.map Prod.fst).Nodup)
    (hfit : ∀ p ∈ feed, 4 + 8 + 4 * p.2.length ≤ bs)
    (hvid : ∀ p ∈ feed, p.1 < 2 ^ 32)
    (hns : ∀ p ∈ feed, ∀ n ∈ p.2, n < 2 ^ 32)
    (hcount : feed.length < 2 ^ 32) :
    ∃ bkt, ((BucketBuilder.new bs).addAll feed).bind BucketBuilder.build =
        some bkt ∧
      ∀ p ∈ feed,
        (∃ m ∈ bkt.vertex_metas, m.vertex_id = p.1) ∧
        ∀ m ∈ bkt.vertex_metas, m.vertex_id = p.1 →
          (bkt.read_block m.page_id).bind
            (fun blk => blk.get_neighbor_clone m.offset_inner) = some p.2 := by
  have hnew : BucketBuilder.new bs = bucketStateOf bs [] [] [] := rfl
  obtain ⟨g2, c2, h2, heq, hflat, hg2, hc2⟩ := addAll_spec bs hbs feed [] [] []
    (by intro gp hgp; exact absurd hgp (List.not_mem_nil gp))
    (Or.inl rfl)
    (by simpa using hnodup)
    hfit
    (by simpa using hcount)
  have hflat2 : g2.flatten ++ c2 = feed := by simpa using hflat
  rw [hnew, heq, Option.some_bind]
  by_cases hc2e : c2 = []
  · subst hc2e
    have hfl3 : g2.flatten = feed := by simpa using hflat2
    refine ⟨⟨(g2.map (fun g => blockBytesOf g bs)).flatten ++
        (VertexMeta.encode (metasOf g2) ++ (Bloom.encodeBytes h2 ++
          (beBytes 4 bs ++
            beBytes 4 ((g2.map (fun g => blockBytesOf g bs)).flatten).length ++
            beBytes 4 (Bloom.encodeBytes h2).length))),
      metasOf g2, ((g2.map (fun g => blockBytesOf g bs)).flatten).length,
      bs⟩, ?_, ?_⟩
    · rw [build_state_empty bs h2 g2]
      refine congrArg some ?_
      congr 1
      simp [List.append_assoc]
    · intro p hp
      exact bucket_groups_read bs hbs g2
        (VertexMeta.encode (metasOf g2) ++ (Bloom.encodeBytes h2 ++
          (beBytes 4 bs ++
            beBytes 4 ((g2.map (fun g => blockBytesOf g bs)).flatten).length ++
            beBytes 4 (Bloom.encodeBytes h2).length))) []
        hg2
        (by rw [hfl3]; exact hnodup)
        (by rw [hfl3]; exact hvid)
        (by rw [hfl3]; exact hns)
        p (by rw [hfl3]; exact hp)
  · have hfitc2 : 4 + 8 * c2.length + 4 * degSum c2 ≤ bs := by
      rcases hc2 with h | h
      · exact absurd h hc2e
      · exact h
    have h16 : (2 : Nat) ^ 16 = 65536 := by norm_num
    have hVc2 : c2.length < 2 ^ 16 := by omega
    have hEc2 : degSum c2 < 2 ^ 16 := by omega
    have hnodupc2 : (c2.map Prod.fst).Nodup := by
      have h1 : ((g2.flatten ++ c2).map Prod.fst).Nodup := by
        rw [hflat2]
        exact hnodup
      rw [List.map_append] at h1
      exact (List.nodup_append.mp h1).2.1
    have hc2len : 1 ≤ c2.length := by
      cases c2 with
      | nil => exact absurd rfl hc2e
      | cons a b => simp
    have hfeedlen : g2.flatten.length + c2.length = feed.length := by
      rw [← hflat2, List.length_append]
    have hpage : g2.length + 1 < 2 ^ 32 := by
      have h1 := groups_length_le_flatten g2 (fun l hl => (hg2 l hl).1)
      omega
    have hfl3 : (g2 ++ [c2]).flatten = feed := by
      rw [List.flatten_append, show ([c2] : List (List (Nat × List Nat))).flatten
        = c2 from by simp]
      exact hflat2
    have hg3 : ∀ gp ∈ g2 ++ [c2], gp ≠ [] ∧
        4 + 8 * gp.length + 4 * degSum gp ≤ bs := by
      intro gp hgp
      rcases List.mem_append.mp hgp with h | h
      · exact hg2 gp h
      · rw [List.mem_singleton.mp h]
        exact ⟨hc2e, hfitc2⟩
    refine ⟨⟨((g2 ++ [c2]).map (fun g => blockBytesOf g bs)).flatten ++
        (VertexMeta.encode (metasOf (g2 ++ [c2])) ++ (Bloom.encodeBytes h2 ++
          (beBytes 4 bs ++
            beBytes 4 (((g2 ++ [c2]).map
              (fun g => blockBytesOf g bs)).flatten).length ++
            beBytes 4 (Bloom.encodeBytes h2).length))),
      metasOf (g2 ++ [c2]),
      (((g2 ++ [c2]).map (fun g => blockBytesOf g bs)).flatten).length,
      bs⟩, ?_, ?_⟩
    · rw [build_state_finish bs h2 g2 c2 hc2e hVc2 hEc2 hfitc2 hnodupc2 hpage]
      refine congrArg some ?_
      congr 1
      simp [List.append_assoc]
    · intro p hp
      exact bucket_groups_read bs hbs (g2 ++ [c2])
        (VertexMeta.encode (metasOf (g2 ++ [c2])) ++ (Bloom.encodeBytes h2 ++
          (beBytes 4 bs ++
            beBytes 4 (((g2 ++ [c2]).map
              (fun g => blockBytesOf g bs)).flatten).length ++
            beBytes 4 (Bloom.encodeBytes h2).length))) []
        hg3
        (by rw [hfl3]; exact hnodup)
        (by rw [hfl3]; exact hvid)
        (by rw [hfl3]; exact hns)
        p (by rw [hfl3]; exact hp)

theorem bucket_build_read_roundtrip_witness :
    (30 : Nat) ≤ 262144 ∧
    ((([(1, [3, 2]), (2, [1])] : List (Nat × List Nat)).map Prod.fst).Nodup) ∧
    (∀ p ∈ ([(1, [3, 2]), (2, [1])] : List (Nat × List Nat)),
      4 + 8 + 4 * p.2.length ≤ 30) ∧
    (∀ p ∈ ([(1, [3, 2]), (2, [1])] : List (Nat × List Nat)), p.1 < 2 ^ 32) ∧
    (∀ p ∈ ([(1, [3, 2]), (2, [1])] : List (Nat × List Nat)),
      ∀ n ∈ p.2, n < 2 ^ 32) ∧
    ([(1, [3, 2]), (2, [1])] : List (Nat × List Nat)).length < 2 ^ 32 ∧
    ∃ bkt, ((BucketBuilder.new 30).addAll
        ([(1, [3, 2]), (2, [1])] : List (Nat × List Nat))).bind
        BucketBuilder.build = some bkt ∧
      ∀ p ∈ ([(1, [3, 2]), (2, [1])] : List (Nat × List Nat)),
        (∃ m ∈ bkt.vertex_metas, m.vertex_id = p.1) ∧
        ∀ m ∈ bkt.vertex_metas, m.vertex_id = p.1 →
          (bkt.read_block m.page_id).bind
            (fun blk => blk.get_neighbor_clone m.offset_inner) = some p.2 :=
  ⟨by decide, by decide, by decide, by decide, by decide, by decide,
    bucket_build_read_roundtrip 30 [(1, [3, 2]), (2, [1])] (by decide)
      (by decide) (by decide) (by decide) (by decide) (by decide)⟩

theorem wrapData_length (r : List Nat) (hlen : r.length = 65536) :
    (wrapData r).length = 262156 := by
  unfold wrapData
  rw [List.length_append, List.length_append, List.length_append,
    length_beBytes, length_beBytes, length_flatMap_be4, hlen]
  simp only [List.flatMap_cons, List.flatMap_nil, List.append_nil,
    List.length_append, length_beBytes]

theorem readU16be_here (n : Nat) (post : List Nat) (hn : n < 2 ^ 16) :
    readU16be (beBytes 2 n ++ post) 0 = n := by
  have h := readU16be_at [] n post 0 rfl hn
  simpa using h

/-- Block::new on one vertex with exactly 2^16 edges and a block size
that admits them: the u16 edge count wraps to 0. -/
theorem block_new_u16_wrap (r : List Nat) (hlen : r.length = 65536) :
    Block.new [((0 : Nat), (0 : Nat))] r 262156 = some ⟨1, 0, wrapData r⟩ := by
  have h1 : ([((0 : Nat), (0 : Nat))] : List (Nat × Nat)).length % 2 ^ 16 = 1 := by
    norm_num
  have h2 : (65536 : Nat) % 2 ^ 16 = 0 := by norm_num
  unfold Block.new
  dsimp only
  rw [hlen, h1, h2]
  rw [if_neg (by norm_num)]
  have hre : beBytes 2 1 ++ beBytes 2 0 ++
      ([((0 : Nat), (0 : Nat))].flatMap
        (fun ve => beBytes 4 ve.1 ++ beBytes 4 ve.2)) ++
      r.flatMap (fun e => beBytes 4 e) = wrapData r := rfl
  rw [hre, if_pos (le_of_eq (wrapData_length r hlen))]
  rw [wrapData_length r hlen]
  norm_num

theorem blockBuilder_build_u16_wrap (r : List Nat) (hlen : r.length = 65536) :
    BlockBuilder.build ⟨csrVertices [((0 : Nat), r)] 0,
        groupEdges [((0 : Nat), r)], 262156, degSum [((0 : Nat), r)]⟩ =
      some (⟨1, 0, wrapData r⟩, [((0 : Nat), (0 : Nat))]) := by
  unfold BlockBuilder.build
  rw [show (⟨csrVertices [((0 : Nat), r)] 0, groupEdges [((0 : Nat), r)],
      262156, degSum [((0 : Nat), r)]⟩ : BlockBuilder).vertices =
      [((0 : Nat), (0 : Nat))] from rfl]
  rw [show ([((0 : Nat), (0 : Nat))] : List (Nat × Nat)).isEmpty = false from rfl]
  rw [show (⟨csrVertices [((0 : Nat), r)] 0, groupEdges [((0 : Nat), r)],
      262156, degSum [((0 : Nat), r)]⟩ : BlockBuilder).edges = r from
    groupEdges_single ((0 : Nat), r)]
  rw [show (⟨csrVertices [((0 : Nat), r)] 0, groupEdges [((0 : Nat), r)],
      262156, degSum [((0 : Nat), r)]⟩ : BlockBuilder).block_size =
      262156 from rfl]
  rw [block_new_u16_wrap r hlen]
  rw [show vertexIndexMapOf [((0 : Nat), (0 : Nat))] =
      [((0 : Nat), (0 : Nat))] from by decide]
  simp

theorem bucketBuilder_finish_u16_wrap (r H : List Nat)
    (hlen : r.length = 65536) :
    (bucketStateOf 262156 H [] [((0 : Nat), r)]).finish_block =
      some ⟨BlockBuilder.new 262156, 262156, H, wrapData r,
        [⟨0, 0, 0⟩], 1⟩ := by
  unfold BucketBuilder.finish_block
  rw [show (bucketStateOf 262156 H [] [((0 : Nat), r)]).builder =
      ⟨csrVertices [((0 : Nat), r)] 0, groupEdges [((0 : Nat), r)], 262156,
        degSum [((0 : Nat), r)]⟩ from rfl,
    blockBuilder_build_u16_wrap r hlen]
  rfl

theorem bucket_build_u16_wrap (r H : List Nat) (hlen : r.length = 65536) :
    (bucketStateOf 262156 H [] [((0 : Nat), r)]).build =
      some ⟨wrapData r ++ VertexMeta.encode [⟨0, 0, 0⟩] ++
          Bloom.encodeBytes H ++
          (beBytes 4 262156 ++ beBytes 4 262156 ++
            beBytes 4 (Bloom.encodeBytes H).length),
        [⟨0, 0, 0⟩], 262156, 262156⟩ := by
  unfold BucketBuilder.build
  rw [show (bucketStateOf 262156 H [] [((0 : Nat), r)]).builder.is_empty =
      false from rfl]
  rw [show (if false = true then some (bucketStateOf 262156 H [] [((0 : Nat), r)])
      else (bucketStateOf 262156 H [] [((0 : Nat), r)]).finish_block) =
      (bucketStateOf 262156 H [] [((0 : Nat), r)]).finish_block from by simp]
  rw [bucketBuilder_finish_u16_wrap r H hlen]
  dsimp only
  rw [wrapData_length r hlen]

theorem block_decode_u16_wrap (r : List Nat) (hlen : r.length = 65536) :
    Block.decode (wrapData r) = some ⟨1, 0, wrapData r⟩ := by
  have hassoc : wrapData r = beBytes 2 1 ++ (beBytes 2 0 ++
      (([((0 : Nat), (0 : Nat))].flatMap
        (fun ve => beBytes 4 ve.1 ++ beBytes 4 ve.2)) ++
        r.flatMap (fun e => beBytes 4 e))) := by
    unfold wrapData
    rw [List.append_assoc, List.append_assoc]
  unfold Block.decode
  rw [if_neg (by rw [wrapData_length r hlen]; norm_num)]
  rw [hassoc, readU16be_here 1 _ (by norm_num),
    readU16be_at (beBytes 2 1) 0 _ 2 (length_beBytes 2 1) (by norm_num),
    ← hassoc]

theorem get_neighbor_u16_wrap (r : List Nat) :
    Block.get_neighbor_clone ⟨1, 0, wrapData r⟩ 0 = some [] := by
  unfold Block.get_neighbor_clone Block.neighbor_range Block.edge_list_offset
  rw [if_pos (show (0 : Nat) < (Block.mk 1 0 (wrapData r)).vertex_count from
    Nat.one_pos)]
  refine congrArg some ?_
  dsimp only
  rw [if_neg (show ¬((0 : Nat) + 1 < 1) from by omega)]
  rw [Nat.zero_sub]
  rfl

theorem bucket_read_u16_wrap (r H : List Nat) (hlen : r.length = 65536) :
    (Bucket.read_block ⟨wrapData r ++ VertexMeta.encode [⟨0, 0, 0⟩] ++
        Bloom.encodeBytes H ++ (beBytes 4 262156 ++ beBytes 4 262156 ++
          beBytes 4 (Bloom.encodeBytes H).length),
        [⟨0, 0, 0⟩], 262156, 262156⟩ 0).bind
      (fun blk => blk.get_neighbor_clone 0) = some [] := by
  have hrawlen := wrapData_length r hlen
  unfold Bucket.read_block
  dsimp only
  rw [show (0 : Nat) * 262156 = 0 from by norm_num]
  rw [if_neg (by norm_num)]
  rw [show min (0 + 262156) 262156 = 262156 from by norm_num, Nat.sub_zero]
  rw [if_neg (by
    rw [List.length_append, List.length_append, List.length_append, hrawlen]
    omega)]
  rw [List.drop_zero, List.append_assoc, List.append_assoc,
    List.take_left' hrawlen]
  rw [block_decode_u16_wrap r hlen, Option.some_bind]
  exact get_neighbor_u16_wrap r

/-- The unamended C6 round-trip fails without a block-size bound: with
block_size 262156 a vertex with 2^16 neighbors exactly fits one block,
the build succeeds and records the meta (vertex 0, page 0, offset 0),
but the u16 edge count wraps to 0, so the read returns the empty
neighbor list instead of the 65536 neighbors that were fed. -/
theorem bucket_roundtrip_u16_wrap_cex :
    ∃ bkt, ((BucketBuilder.new 262156).addAll
        [((0 : Nat), List.range 65536)]).bind BucketBuilder.build = some bkt ∧
      bkt.vertex_metas = [⟨0, 0, 0⟩] ∧
      (bkt.read_block 0).bind (fun blk => blk.get_neighbor_clone 0) =
        some [] ∧
      ([] : List Nat) ≠ List.range 65536 := by
  obtain ⟨r, hr⟩ : ∃ r : List Nat, r = List.range 65536 := ⟨_, rfl⟩
  have hlen : r.length = 65536 := by rw [hr]; exact List.length_range 65536
  rw [← hr]
  have hcond : ¬(4 + (csrVertices ([] : List (Nat × List Nat)) 0).length * 8 +
      (groupEdges ([] : List (Nat × List Nat))).length * 4 + 8 +
      ((0 : Nat), r).2.length * 4 > 262156 ∧
      (csrVertices ([] : List (Nat × List Nat)) 0).isEmpty = false) := by
    intro h
    simpa [csrVertices] using h.2
  have hwrap : degSum ([] : List (Nat × List Nat)) +
      ((0 : Nat), r).2.length < 2 ^ 32 := by
    rw [show degSum ([] : List (Nat × List Nat)) = 0 from rfl]
    show 0 + r.length < 2 ^ 32
    rw [hlen]
    norm_num
  have hadd := bucketAdd_fit 262156 [] [] [] (0, r) hwrap hcond
  have hadd2 : (bucketStateOf 262156 [] [] []).add 0 r =
      some (bucketStateOf 262156 (r.map (fun n =>
        farmhash64 (((0 % 2 ^ 32) <<< 32) ||| (n % 2 ^ 32)))) []
        [((0 : Nat), r)]) := by
    simpa using hadd
  have haddAll : (bucketStateOf 262156 [] [] []).addAll [((0 : Nat), r)] =
      some (bucketStateOf 262156 (r.map (fun n =>
        farmhash64 (((0 % 2 ^ 32) <<< 32) ||| (n % 2 ^ 32)))) []
        [((0 : Nat), r)]) := by
    simp only [BucketBuilder.addAll, hadd2]
  refine ⟨⟨wrapData r ++ VertexMeta.encode [⟨0, 0, 0⟩] ++
      Bloom.encodeBytes (r.map (fun n =>
        farmhash64 (((0 % 2 ^ 32) <<< 32) ||| (n % 2 ^ 32)))) ++
      (beBytes 4 262156 ++ beBytes 4 262156 ++
        beBytes 4 (Bloom.encodeBytes (r.map (fun n =>
          farmhash64 (((0 % 2 ^ 32) <<< 32) ||| (n % 2 ^ 32))))).length),
    [⟨0, 0, 0⟩], 262156, 262156⟩, ?_, rfl, ?_, ?_⟩
  · rw [show BucketBuilder.new 262156 = bucketStateOf 262156 [] [] [] from rfl,
      haddAll, Option.some_bind]
    exact bucket_build_u16_wrap r _ hlen
  · exact bucket_read_u16_wrap r _ hlen
  · intro h
    have hcl := congrArg List.length h
    rw [hlen] at hcl
    simp at hcl

theorem bfsMark_length (m : List Nat) (v : Nat) :
    (bfsMark m v).length = m.length := by
  unfold bfsMark
  dsimp only
  by_cases h : v / 64 < m.length
  · rw [if_pos h, List.length_set]
  · rw [if_neg h]

theorem and_shift_ne (y b : Nat) : (y &&& (1 <<< b) != 0) = y.testBit b := by
  rw [Nat.shiftLeft_eq, one_mul, Nat.and_two_pow]
  cases h : y.testBit b
  · simp
  · simp only [Bool.toNat_true, one_mul, bne_iff_ne]
    exact (Nat.two_pow_pos b).ne'

theorem testBit_one_shift_self (b : Nat) : (1 <<< b).testBit b = true := by
  rw [Nat.shiftLeft_eq, one_mul]
  exact Nat.testBit_two_pow_self

theorem testBit_one_shift_ne (b b' : Nat) (h : b ≠ b') :
    (1 <<< b).testBit b' = false := by
  rw [Nat.shiftLeft_eq, one_mul]
  exact Nat.testBit_two_pow_of_ne h

theorem bfsTest_mark_self (m : List Nat) (v : Nat) (h : v / 64 < m.length) :
    bfsTest (bfsMark m v) v = true := by
  unfold bfsTest bfsMark
  dsimp only
  rw [if_pos h, List.length_set]
  rw [List.getD_eq_getElem?_getD, List.getElem?_set_eq h, Option.getD_some]
  rw [and_shift_ne, Nat.testBit_or, testBit_one_shift_self]
  simp [h]

theorem bfsTest_mark_other (m : List Nat) (v w : Nat) (hne : w ≠ v) :
    bfsTest (bfsMark m v) w = bfsTest m w := by
  unfold bfsTest bfsMark
  dsimp only
  by_cases hv : v / 64 < m.length
  · rw [if_pos hv, List.length_set]
    by_cases hidx : w / 64 = v / 64
    · have hbit : w % 64 ≠ v % 64 := fun hb => hne (by omega)
      rw [hidx]
      rw [List.getD_eq_getElem?_getD (m.set (v / 64) _),
        List.getElem?_set_eq hv, Option.getD_some]
      rw [List.getD_eq_getElem?_getD m, List.getElem?_eq_getElem hv,
        Option.getD_some]
      rw [and_shift_ne, and_shift_ne, Nat.testBit_or,
        testBit_one_shift_ne (v % 64) (w % 64) (fun hb => hbit hb.symm)]
      simp
    · rw [List.getD_eq_getElem?_getD (m.set (v / 64) _),
        List.getElem?_set_ne (fun hb => hidx hb.symm),
        ← List.getD_eq_getElem?_getD m]
  · rw [if_neg hv]

theorem getD_replicate_zero (n i : Nat) :
    (List.replicate n (0 : Nat)).getD i 0 = 0 := by
  rcases Nat.lt_or_ge i n with h | h
  · rw [List.getD_eq_getElem?_getD,
      List.getElem?_eq_getElem (by simpa using h)]
    simp
  · rw [List.getD_eq_getElem?_getD, List.getElem?_eq_none (by simpa using h)]
    rfl

theorem bfsTest_zero (n w : Nat) :
    bfsTest (List.replicate n 0) w = false := by
  unfold bfsTest
  dsimp only
  rw [getD_replicate_zero, Nat.zero_and]
  simp

theorem nodup_append_one {α : Type} {l : List α} {a : α}
    (h : l.Nodup) (ha : a ∉ l) : (l ++ [a]).Nodup := by
  rw [List.nodup_append]
  refine ⟨h, List.nodup_singleton a, ?_⟩
  intro x hx hmem
  rw [List.mem_singleton] at hmem
  rw [hmem] at hx
  exact ha hx

theorem pairwise_const_le (c : Nat) (l : List (Nat × Nat))
    (h : ∀ p ∈ l, p.2 = c) :
    List.Pairwise (fun p q : Nat × Nat => p.2 ≤ q.2) l := by
  induction l with
  | nil => exact List.Pairwise.nil
  | cons p t ih =>
    refine List.Pairwise.cons ?_ (ih (fun q hq => h q (List.mem_cons_of_mem p hq)))
    intro q hq
    rw [h p (List.mem_cons_self p t), h q (List.mem_cons_of_mem p hq)]

theorem length_le_of_nodup_lt (l : List Nat) (V : Nat)
    (hnd : l.Nodup) (hlt : ∀ x ∈ l, x < V) : l.length ≤ V := by
  have h1 : l.toFinset.card = l.length := List.toFinset_card_of_nodup hnd
  have h2 : l.toFinset ⊆ Finset.range V := by
    intro x hx
    rw [List.mem_toFinset] at hx
    rw [Finset.mem_range]
    exact hlt x hx
  have h3 := Finset.card_le_card h2
  rw [h1, Finset.card_range] at h3
  exact h3

/-- One pass of the neighbor loop: the result and queue are extended by
the same block of pairs at the next distance, the bitmap stays in sync
with the result, and afterwards every scanned neighbor is in the
result. -/
theorem bfsStep_spec (V : Nat) (adj : Nat → List Nat) (s v dist : Nat)
    (hsv : NSteps adj s v dist) :
    ∀ (ns : List Nat) (visited : List Nat) (queue result : List (Nat × Nat)),
      (∀ n ∈ ns, n ∈ adj v) →
      (∀ n ∈ ns, n < V) →
      visited.length = (V + 63) / 64 →
      (result.map Prod.fst).Nodup →
      (∀ p ∈ result, p.1 < V) →
      (∀ w, bfsTest visited w = true ↔ w ∈ result.map Prod.fst) →
      (∀ p ∈ result, NSteps adj s p.1 p.2) →
      ∃ (visited2 : List Nat) (Δ : List (Nat × Nat)),
        bfsStep dist visited queue result ns =
          (visited2, queue ++ Δ, result ++ Δ) ∧
        visited2.length = (V + 63) / 64 ∧
        ((result ++ Δ).map Prod.fst).Nodup ∧
        (∀ p ∈ result ++ Δ, p.1 < V) ∧
        (∀ w, bfsTest visited2 w = true ↔ w ∈ (result ++ Δ).map Prod.fst) ∧
        (∀ p ∈ result ++ Δ, NSteps adj s p.1 p.2) ∧
        (∀ p ∈ Δ, p.2 = dist + 1) ∧
        (∀ n ∈ ns, n ∈ (result ++ Δ).map Prod.fst) := by
  intro ns
  induction ns with
  | nil =>
    intro visited queue result _ _ h1 h2 h3 h4 h5
    exact ⟨visited, [], by simp [bfsStep], h1, by simpa using h2,
      by simpa using h3, by simpa using h4, by simpa using h5,
      by simp, by simp⟩
  | cons nb rest ih =>
    intro visited queue result hmem hlt h1 h2 h3 h4 h5
    have hnbV : nb < V := hlt nb (List.mem_cons_self nb rest)
    have hmem2 : ∀ n ∈ rest, n ∈ adj v :=
      fun n hn => hmem n (List.mem_cons_of_mem nb hn)
    have hlt2 : ∀ n ∈ rest, n < V :=
      fun n hn => hlt n (List.mem_cons_of_mem nb hn)
    by_cases hvis : bfsTest visited nb = true
    · have hstep : bfsStep dist visited queue result (nb :: rest) =
          bfsStep dist visited queue result rest := by
        show (if bfsTest visited nb then bfsStep dist visited queue result rest
          else bfsStep dist (bfsMark visited nb) (queue ++ [(nb, dist + 1)])
            (result ++ [(nb, dist + 1)]) rest) =
          bfsStep dist visited queue result rest
        rw [if_pos hvis]
      obtain ⟨v2, Δ, heq, i1, i2, i3, i4, i5, i6, i7⟩ :=
        ih visited queue result hmem2 hlt2 h1 h2 h3 h4 h5
      refine ⟨v2, Δ, by rw [hstep]; exact heq, i1, i2, i3, i4, i5, i6, ?_⟩
      intro n hn
      rcases List.mem_cons.mp hn with hn | hn
      · rw [hn]
        have := (h4 nb).mp hvis
        rw [List.map_append]
        exact List.mem_append_left _ this
      · exact i7 n hn
    · have hnotin : nb ∉ result.map Prod.fst := fun hmem3 => hvis ((h4 nb).mpr hmem3)
      have hstep : bfsStep dist visited queue result (nb :: rest) =
          bfsStep dist (bfsMark visited nb) (queue ++ [(nb, dist + 1)])
            (result ++ [(nb, dist + 1)]) rest := by
        show (if bfsTest visited nb then bfsStep dist visited queue result rest
          else bfsStep dist (bfsMark visited nb) (queue ++ [(nb, dist + 1)])
            (result ++ [(nb, dist + 1)]) rest) =
          bfsStep dist (bfsMark visited nb) (queue ++ [(nb, dist + 1)])
            (result ++ [(nb, dist + 1)]) rest
        rw [if_neg hvis]
      have hdiv : nb / 64 < visited.length := by
        rw [h1]
        omega
      have h1' : (bfsMark visited nb).length = (V + 63) / 64 := by
        rw [bfsMark_length]
        exact h1
      have h2' : ((result ++ [(nb, dist + 1)]).map Prod.fst).Nodup := by
        rw [List.map_append]
        exact nodup_append_one h2 hnotin
      have h3' : ∀ p ∈ result ++ [(nb, dist + 1)], p.1 < V := by
        intro p hp
        rcases List.mem_append.mp hp with hp | hp
        · exact h3 p hp
        · rw [List.mem_singleton.mp hp]
          exact hnbV
      have h4' : ∀ w, bfsTest (bfsMark visited nb) w = true ↔
          w ∈ (result ++ [(nb, dist + 1)]).map Prod.fst := by
        intro w
        rw [List.map_append]
        by_cases hw : w = nb
        · subst hw
          constructor
          · intro _
            exact List.mem_append_right _ (by simp)
          · intro _
            exact bfsTest_mark_self visited w hdiv
        · rw [bfsTest_mark_other visited nb w hw]
          rw [h4 w]
          constructor
          · exact fun h => List.mem_append_left _ h
          · intro h
            rcases List.mem_append.mp h with h | h
            · exact h
            · exact absurd (by simpa using h) hw
      have h5' : ∀ p ∈ result ++ [(nb, dist + 1)], NSteps adj s p.1 p.2 := by
        intro p hp
        rcases List.mem_append.mp hp with hp | hp
        · exact h5 p hp
        · rw [List.mem_singleton.mp hp]
          exact NSteps.step hsv (hmem nb (List.mem_cons_self nb rest))
      obtain ⟨v2, Δ, heq, i1, i2, i3, i4, i5, i6, i7⟩ :=
        ih (bfsMark visited nb) (queue ++ [(nb, dist + 1)])
          (result ++ [(nb, dist + 1)]) hmem2 hlt2 h1' h2' h3' h4' h5'
      refine ⟨v2, (nb, dist + 1) :: Δ, ?_, i1, ?_, ?_, ?_, ?_, ?_, ?_⟩
      · rw [hstep, heq]
        rw [List.append_assoc, List.append_assoc]
        rfl
      · rw [show result ++ (nb, dist + 1) :: Δ =
          (result ++ [(nb, dist + 1)]) ++ Δ from by simp]
        exact i2
      · rw [show result ++ (nb, dist + 1) :: Δ =
          (result ++ [(nb, dist + 1)]) ++ Δ from by simp]
        exact i3
      · rw [show result ++ (nb, dist + 1) :: Δ =
          (result ++ [(nb, dist + 1)]) ++ Δ from by simp]
        exact i4
      · rw [show result ++ (nb, dist + 1) :: Δ =
          (result ++ [(nb, dist + 1)]) ++ Δ from by simp]
        exact i5
      · intro p hp
        rcases List.mem_cons.mp hp with hp | hp
        · rw [hp]
        · exact i6 p hp
      · intro n hn
        rw [show result ++ (nb, dist + 1) :: Δ =
          (result ++ [(nb, dist + 1)]) ++ Δ from by simp]
        rcases List.mem_cons.mp hn with hn | hn
        · rw [List.map_append]
          refine List.mem_append_left _ ?_
          rw [List.map_append]
          refine List.mem_append_right _ ?_
          rw [hn]
          simp
        · exact i7 n hn

/-- The BFS loop, on any state satisfying its invariants and with fuel
exceeding the remaining work, drains the queue and returns a result
that extends the current one, has pairwise-distinct vertices, is sound
for path lengths, and is neighbor-closed. -/
theorem bfsLoop_spec (V : Nat) (adj : Nat → List Nat) (s : Nat)
    (hadj : ∀ v, v < V → ∀ n ∈ adj v, n < V) :
    ∀ (fuel : Nat) (visited : List Nat) (queue result : List (Nat × Nat))
      (k : Nat),
      visited.length = (V + 63) / 64 →
      (result.map Prod.fst).Nodup →
      (∀ p ∈ result, p.1 < V) →
      (∀ w, bfsTest visited w = true ↔ w ∈ result.map Prod.fst) →
      queue = result.drop k →
      (∀ p ∈ result, NSteps adj s p.1 p.2) →
      (∀ p ∈ result, ∀ q ∈ queue, p.2 ≤ q.2 + 1) →
      List.Pairwise (fun p q : Nat × Nat => p.2 ≤ q.2) queue →
      (∀ p ∈ result.take k, ∀ n ∈ adj p.1,
        ∃ e, e ≤ p.2 + 1 ∧ (n, e) ∈ result) →
      queue.length + (V - result.length) < fuel →
      ∃ final,
        bfsLoop (fun u => if u < V then some (adj u) else none)
          fuel visited queue result = (final, true) ∧
        (∀ p ∈ result, p ∈ final) ∧
        ((final.map Prod.fst).Nodup) ∧
        (∀ p ∈ final, NSteps adj s p.1 p.2) ∧
        (∀ p ∈ final, ∀ n ∈ adj p.1, ∃ e, e ≤ p.2 + 1 ∧ (n, e) ∈ final) := by
  intro fuel
  induction fuel with
  | zero =>
    intro visited queue result k _ _ _ _ _ _ _ _ _ hfuel
    exact absurd hfuel (by omega)
  | succ fuel ih =>
    intro visited queue result k h1 h2 h3 h4 h5 h6 h7 h8 h9 hfuel
    rcases queue with _ | ⟨⟨vd, dd⟩, tail⟩
    · have hlen : result.length ≤ k := List.drop_eq_nil_iff.mp h5.symm
      have htk : result.take k = result := List.take_of_length_le hlen
      rw [htk] at h9
      exact ⟨result, rfl, fun p hp => hp, h2, h6, h9⟩
    · have hhead : (vd, dd) ∈ result := by
        have hm : (vd, dd) ∈ result.drop k := by
          rw [← h5]
          exact List.mem_cons_self _ _
        exact List.mem_of_mem_drop hm
      have hvdV : vd < V := h3 _ hhead
      have hkd : k < result.length := by
        by_contra hcon
        push_neg at hcon
        have hnil : result.drop k = [] := List.drop_eq_nil_iff.mpr hcon
        rw [← h5] at hnil
        exact absurd hnil (by simp)
      have hall : ∀ p ∈ result, p.2 ≤ dd + 1 :=
        fun p hp => h7 p hp (vd, dd) (List.mem_cons_self _ _)
      have htail_mem : ∀ q ∈ tail, q ∈ result := by
        intro q hq
        have hm : q ∈ result.drop k := by
          rw [← h5]
          exact List.mem_cons_of_mem _ hq
        exact List.mem_of_mem_drop hm
      have htail_ge : ∀ q ∈ tail, dd ≤ q.2 := (List.pairwise_cons.mp h8).1
      have htail_pw := (List.pairwise_cons.mp h8).2
      have hsv : NSteps adj s vd dd := h6 _ hhead
      obtain ⟨v2, Δ, heq, i1, i2, i3, i4, i5, i6, i7⟩ :=
        bfsStep_spec V adj s vd dd hsv (adj vd) visited tail result
          (fun n hn => hn) (hadj vd hvdV) h1 h2 h3 h4 h6
      have hloopeq : bfsLoop (fun u => if u < V then some (adj u) else none)
          (fuel + 1) visited ((vd, dd) :: tail) result =
          bfsLoop (fun u => if u < V then some (adj u) else none) fuel v2
            (tail ++ Δ) (result ++ Δ) := by
        show (match (if vd < V then some (adj vd) else none) with
          | none => bfsLoop (fun u => if u < V then some (adj u) else none)
              fuel visited tail result
          | some ns =>
            let st := bfsStep dd visited tail result ns
            bfsLoop (fun u => if u < V then some (adj u) else none)
              fuel st.1 st.2.1 st.2.2) = _
        rw [if_pos hvdV]
        show bfsLoop (fun u => if u < V then some (adj u) else none) fuel
          (bfsStep dd visited tail result (adj vd)).1
          (bfsStep dd visited tail result (adj vd)).2.1
          (bfsStep dd visited tail result (adj vd)).2.2 = _
        rw [heq]
      have hdropk := List.drop_eq_getElem_cons hkd
      rw [hdropk] at h5
      obtain ⟨hhk, htl⟩ := List.cons.inj h5
      have n5 : tail ++ Δ = (result ++ Δ).drop (k + 1) := by
        rw [List.drop_append_of_le_length (by omega), ← htl]
      have n7 : ∀ p ∈ result ++ Δ, ∀ q ∈ tail ++ Δ, p.2 ≤ q.2 + 1 := by
        intro p hp q hq
        have hq2ge : dd ≤ q.2 := by
          rcases List.mem_append.mp hq with h | h
          · exact htail_ge q h
          · rw [i6 q h]
            omega
        rcases List.mem_append.mp hp with h | h
        · have := hall p h
          omega
        · rw [i6 p h]
          omega
      have n8 : List.Pairwise (fun p q : Nat × Nat => p.2 ≤ q.2) (tail ++ Δ) := by
        rw [List.pairwise_append]
        refine ⟨htail_pw, pairwise_const_le (dd + 1) Δ i6, ?_⟩
        intro a ha b hb
        rw [i6 b hb]
        have := hall a (htail_mem a ha)
        omega
      have n9 : ∀ p ∈ (result ++ Δ).take (k + 1), ∀ n ∈ adj p.1,
          ∃ e, e ≤ p.2 + 1 ∧ (n, e) ∈ result ++ Δ := by
        intro p hp n hn
        rw [List.take_append_of_le_length (by omega), List.take_succ] at hp
        rcases List.mem_append.mp hp with hp | hp
        · obtain ⟨e, he1, he2⟩ := h9 p hp n hn
          exact ⟨e, he1, List.mem_append_left _ he2⟩
        · rw [List.getElem?_eq_getElem hkd] at hp
          simp only [Option.toList_some, List.mem_singleton] at hp
          have hpk : p = (vd, dd) := hp.trans hhk.symm
          rw [hpk] at hn ⊢
          have hm := i7 n hn
          obtain ⟨q, hq, hq1⟩ := List.mem_map.mp hm
          refine ⟨q.2, ?_, ?_⟩
          · rcases List.mem_append.mp hq with h | h
            · exact hall q h
            · rw [i6 q h]
          · rw [show (n, q.2) = q from by rw [← hq1]]
            exact hq
      have nfuel : (tail ++ Δ).length + (V - (result ++ Δ).length) < fuel := by
        have hlenle : result.length + Δ.length ≤ V := by
          have hx := length_le_of_nodup_lt ((result ++ Δ).map Prod.fst) V i2
            (by
              intro x hx
              obtain ⟨q, hq, rfl⟩ := List.mem_map.mp hx
              exact i3 q hq)
          rw [List.length_map, List.length_append] at hx
          exact hx
        have hf2 : tail.length + 1 + (V - result.length) < fuel + 1 := by
          simpa using hfuel
        rw [List.length_append, List.length_append]
        omega
      obtain ⟨final, f1, f2, f3, f4, f5⟩ := ih v2 (tail ++ Δ) (result ++ Δ)
        (k + 1) i1 i2 i3 i4 n5 i5 n7 n8 n9 nfuel
      refine ⟨final, ?_, ?_, f3, f4, f5⟩
      · rw [hloopeq]
        exact f1
      · intro p hp
        exact f2 p (List.mem_append_left _ hp)

/-- C7: on the base graph with the deltas excluded, for a start vertex
that resolves to an existing vertex and in-range adjacency lists, bfs
returns every vertex reachable from the start exactly once (the vertex
components are pairwise distinct), paired with the length of the
shortest directed path from the start, and no unreachable vertex
appears (membership implies reachability by the second conjunct). -/
theorem bfs_shortest_paths (V : Nat) (adj : Nat → List Nat) (s : Nat)
    (hs : s < V) (hadj : ∀ v, v < V → ∀ n ∈ adj v, n < V) :
    ((LsmCommunity.bfs V adj s).map Prod.fst).Nodup ∧
    (∀ v d, (v, d) ∈ LsmCommunity.bfs V adj s →
      NSteps adj s v d ∧ ∀ e, NSteps adj s v e → d ≤ e) ∧
    (∀ v e, NSteps adj s v e →
      ∃ d, d ≤ e ∧ (v, d) ∈ LsmCommunity.bfs V adj s) := by
  have hdiv : s / 64 < (List.replicate ((V + 63) / 64) (0 : Nat)).length := by
    rw [List.length_replicate]
    omega
  have hmark := bfsTest_mark_self (List.replicate ((V + 63) / 64) 0) s hdiv
  obtain ⟨final, f1, f2, f3, f4, f5⟩ := bfsLoop_spec V adj s hadj (V + 1)
    (bfsMark (List.replicate ((V + 63) / 64) 0) s) [(s, 0)] [(s, 0)] 0
    (by rw [bfsMark_length, List.length_replicate])
    (by simp)
    (by
      intro p hp
      rw [List.mem_singleton.mp hp]
      exact hs)
    (by
      intro w
      by_cases hw : w = s
      · subst hw
        simp [hmark]
      · rw [bfsTest_mark_other _ s w hw, bfsTest_zero]
        simp [hw])
    (by simp)
    (by
      intro p hp
      rw [List.mem_singleton.mp hp]
      exact NSteps.refl)
    (by
      intro p hp q hq
      rw [List.mem_singleton.mp hp, List.mem_singleton.mp hq]
      omega)
    (by simp)
    (by
      intro p hp
      simp at hp)
    (by
      simp only [List.length_cons, List.length_nil]
      omega)
  have hbfs : LsmCommunity.bfs V adj s = final := by
    unfold LsmCommunity.bfs
    rw [if_pos hs, f1]
  have hstart : (s, 0) ∈ final := f2 (s, 0) (List.mem_cons_self _ _)
  have hreach : ∀ v e, NSteps adj s v e → ∃ d, d ≤ e ∧ (v, d) ∈ final := by
    intro v e h
    induction h with
    | refl => exact ⟨0, Nat.le_refl 0, hstart⟩
    | step h1 h2 ih =>
      obtain ⟨dw, hdw, hmemw⟩ := ih
      obtain ⟨ev, hev, hmemv⟩ := f5 _ hmemw _ h2
      exact ⟨ev, by omega, hmemv⟩
  refine ⟨by rw [hbfs]; exact f3, ?_, ?_⟩
  · intro v d hmem
    rw [hbfs] at hmem
    refine ⟨f4 _ hmem, ?_⟩
    intro e he
    obtain ⟨d2, hd2e, hmem2⟩ := hreach v e he
    have heqp : (v, d) = (v, d2) :=
      List.inj_on_of_nodup_map f3 hmem hmem2 rfl
    have hdd : d = d2 := congrArg Prod.snd heqp
    omega
  · intro v e he
    obtain ⟨d, hde, hmem⟩ := hreach v e he
    refine ⟨d, hde, ?_⟩
    rw [hbfs]
    exact hmem

theorem bfs_shortest_paths_witness :
    (0 : Nat) < 4 ∧
    (∀ v, v < 4 →
      ∀ n ∈ ([[1, 2], [3], [3], []].getD v ([] : List Nat)), n < 4) ∧
    (((LsmCommunity.bfs 4
        (fun v => [[1, 2], [3], [3], []].getD v ([] : List Nat)) 0).map
      Prod.fst).Nodup ∧
    (∀ v d, (v, d) ∈ LsmCommunity.bfs 4
        (fun v => [[1, 2], [3], [3], []].getD v ([] : List Nat)) 0 →
      NSteps (fun v => [[1, 2], [3], [3], []].getD v ([] : List Nat)) 0 v d ∧
      ∀ e, NSteps (fun v => [[1, 2], [3], [3], []].getD v ([] : List Nat))
        0 v e → d ≤ e) ∧
    (∀ v e, NSteps (fun v => [[1, 2], [3], [3], []].getD v ([] : List Nat))
        0 v e →
      ∃ d, d ≤ e ∧ (v, d) ∈ LsmCommunity.bfs 4
        (fun v => [[1, 2], [3], [3], []].getD v ([] : List Nat)) 0)) :=
  ⟨by decide, by decide,
    bfs_shortest_paths 4
      (fun v => [[1, 2], [3], [3], []].getD v ([] : List Nat)) 0
      (by decide) (by decide)⟩

end MonacGraph
